import Mathlib

/-!
Verification of a time-bounded Monte Carlo Tree Search engine
(`my_custom_player.py`: classes `MCTSNode`, `MCTSSearch`, `CustomPlayer`).

The mutable Python tree (nodes with parent pointers, updated in place) is
embedded as an inductive tree; mutation along a root-to-node path becomes a
path-indexed functional update.  The wall-clock loop of `best_action` is
abstracted by the number `n` of completed iterations; the random sources
(`random.choice` in `expand`, the random rollout outcome of `playout_policy`)
are abstracted by oracle streams, so every theorem quantifies over all
possible draws.  Floating-point arithmetic is modelled by the real numbers.
Python exceptions are modelled by `Except Unit` / `Option` results.
-/

/-- The external game-state interface consumed by the engine
(see `isolation`: `player`, `actions`, `result`, `terminal_test`,
`locs`, `liberties`).  States are an abstract type `σ`; actions are
integers (the isolation library encodes actions as ints). -/
structure GameOps (σ : Type) where
  player : σ → ℕ
  actions : σ → List ℤ
  result : σ → ℤ → σ
  terminalTest : σ → Bool
  locs : σ → ℕ → ℕ
  liberties : σ → ℕ → List ℕ

/-- `MCTSNode`: `state`, `action` (the action that led here from the parent,
`none` for the root), `visit`, `utility`, `children`, `untried_actions`.
The parent pointer is not stored; it is recovered from the path to the node. -/
inductive MCTree (σ : Type) : Type where
  | mk (state : σ) (action : Option ℤ) (visit : ℕ) (utility : ℤ)
       (children : List (MCTree σ)) (untried : List ℤ)

namespace MCTree

variable {σ : Type}

def state : MCTree σ → σ
  | mk s _ _ _ _ _ => s

def action : MCTree σ → Option ℤ
  | mk _ a _ _ _ _ => a

def visit : MCTree σ → ℕ
  | mk _ _ v _ _ _ => v

def utility : MCTree σ → ℤ
  | mk _ _ _ u _ _ => u

def children : MCTree σ → List (MCTree σ)
  | mk _ _ _ _ c _ => c

def untried : MCTree σ → List ℤ
  | mk _ _ _ _ _ un => un

/-- Replace the children list, keeping all other fields. -/
def setChildren : MCTree σ → List (MCTree σ) → MCTree σ
  | mk s a v u _ un, c => mk s a v u c un

@[simp] theorem state_mk (s : σ) (a v u c un) : (MCTree.mk s a v u c un).state = s := rfl
@[simp] theorem action_mk (s : σ) (a v u c un) : (MCTree.mk s a v u c un).action = a := rfl
@[simp] theorem visit_mk (s : σ) (a v u c un) : (MCTree.mk s a v u c un).visit = v := rfl
@[simp] theorem utility_mk (s : σ) (a v u c un) : (MCTree.mk s a v u c un).utility = u := rfl
@[simp] theorem children_mk (s : σ) (a v u c un) : (MCTree.mk s a v u c un).children = c := rfl
@[simp] theorem untried_mk (s : σ) (a v u c un) : (MCTree.mk s a v u c un).untried = un := rfl
@[simp] theorem setChildren_mk (s : σ) (a v u c un c2) :
    (MCTree.mk s a v u c un).setChildren c2 = MCTree.mk s a v u c2 un := rfl

end MCTree

variable {σ : Type}

/-- `MCTSNode.__init__`: a fresh node for `state` with the given incoming
action; `visit = 0`, `utility = 0`, no children, and
`untried_actions = state.actions()`. -/
def mkNode (g : GameOps σ) (s : σ) (a : Option ℤ) : MCTree σ :=
  MCTree.mk s a 0 0 [] (g.actions s)

/-- The root node built by `MCTSSearch(MCTSNode(state))`. -/
def mkRoot (g : GameOps σ) (s : σ) : MCTree σ :=
  mkNode g s none

/-- `MCTSNode.is_fully_expanded`: `len(self.untried_actions) == 0`. -/
def is_fully_expanded (t : MCTree σ) : Bool :=
  t.untried.length == 0

/-- `MCTSNode.heuristic_score(state)`: liberties of the current location of
`state.player()` minus liberties of the current location of the other player,
both evaluated on `state`. -/
def heuristic_score (g : GameOps σ) (s : σ) : ℤ :=
  let player_id := g.player s
  let own_loc := g.locs s player_id
  let opp_loc := g.locs s (1 - player_id)
  ((g.liberties s own_loc).length : ℤ) - ((g.liberties s opp_loc).length : ℤ)

/-- Modelled from the spec: the mobility heuristic as claim C2 words it,
"liberties of the own current location minus liberties of the opponent's
current location" evaluated from the viewpoint of the given acting player
(rather than from the viewpoint of `state.player()` as the code does). -/
def specHeuristic (g : GameOps σ) (actingPlayer : ℕ) (s : σ) : ℤ :=
  ((g.liberties s (g.locs s actingPlayer)).length : ℤ) -
    ((g.liberties s (g.locs s (1 - actingPlayer))).length : ℤ)

/-- The selection score computed inside `MCTSNode.best_child` for a child `t`
of a node with visit count `parentVisit`:
`t.utility / t.visit + c_param * sqrt(2 * log(self.visit / t.visit))`.
Python floats are modelled by the reals. -/
noncomputable def selectionScore (c_param : ℝ) (parentVisit : ℕ) (t : MCTree σ) : ℝ :=
  (t.utility : ℝ) / (t.visit : ℝ) +
    c_param * Real.sqrt (2 * Real.log ((parentVisit : ℝ) / (t.visit : ℝ)))

/-- Modelled from the spec: the "canonical aggregate-sibling-visits form" of
UCT that §9 contrasts with the implemented formula — the total visit count
`N` appears inside the logarithm and the whole logarithm is divided by the
child's visit count. -/
noncomputable def canonicalScore (c_param : ℝ) (n : ℕ) (t : MCTree σ) : ℝ :=
  (t.utility : ℝ) / (t.visit : ℝ) +
    c_param * Real.sqrt (2 * Real.log (n : ℝ) / (t.visit : ℝ))

/-- The accumulation loop of `best_child`:
`maxscore`/`maxactions` are threaded through the children (paired with their
index in `self.children`); a strictly greater score resets `maxactions` to
the singleton, an equal score appends, a smaller score is skipped. -/
noncomputable def maxScoreFold (score : MCTree σ → ℝ) :
    List (ℕ × MCTree σ) → ℝ × List (ℕ × MCTree σ) → ℝ × List (ℕ × MCTree σ)
  | [], acc => acc
  | (i, t) :: ts, (m, acts) =>
    if score t > m then maxScoreFold score ts (score t, [(i, t)])
    else if score t = m then maxScoreFold score ts (m, acts ++ [(i, t)])
    else maxScoreFold score ts (m, acts)

/-- `MCTSNode.best_child`, returning the index of the chosen child in
`self.children`.  `maxscore` starts at `-999`; among the collected
`maxactions` the one whose `heuristic_score` is greatest is chosen, first
occurrence on a tie (`helper_scores.index(max(helper_scores))`).
Returns `none` exactly when `maxactions` ends up empty, in which case the
Python code raises `ValueError` from `max` of an empty sequence. -/
noncomputable def bestChildIdx (g : GameOps σ) (c_param : ℝ) (t : MCTree σ) : Option ℕ :=
  let res := maxScoreFold (selectionScore c_param t.visit) t.children.enum ((-999 : ℝ), [])
  let maxactions := res.2
  let helper_scores := maxactions.map (fun x => heuristic_score g x.2.state)
  match helper_scores.max? with
  | none => none
  | some m => (maxactions.get? (helper_scores.indexOf m)).map (fun x => x.1)

/-- `MCTSNode.best_child` as a node-returning function (the Python method
returns the chosen child object). -/
noncomputable def best_child (g : GameOps σ) (c_param : ℝ) (t : MCTree σ) : Option (MCTree σ) :=
  (bestChildIdx g c_param t).bind (fun i => t.children.get? i)

/-- `random.choice` applied to a list, with the draw supplied by an oracle
number `k`; `none` models the `IndexError` raised on an empty list. -/
def randomChoice (k : ℕ) (l : List ℤ) : Option ℤ :=
  l.get? (k % l.length)

/-- `MCTSNode.expand`: pick an untried action (`random.choice`, modelled by
the oracle index `pk`), remove it (`list.remove` removes the first equal
element, i.e. `List.erase`), create the child node for the successor state,
append it to `children`.  Returns the updated node together with the index of
the new child; `none` models the exception `random.choice([])` would raise. -/
def expand (g : GameOps σ) (pk : ℕ) : MCTree σ → Option (MCTree σ × ℕ)
  | .mk s a v u ch un =>
    match un.get? (pk % un.length) with
    | none => none
    | some act =>
      some (.mk s a v u (ch ++ [mkNode g (g.result s act) (some act)]) (un.erase act),
            ch.length)

/-- Add one visit and `r` utility to a node (one touch of
`MCTSNode.backpropagate`: `visit += 1; utility += result`). -/
def bump (r : ℤ) : MCTree σ → MCTree σ
  | .mk s a v u c un => .mk s a (v + 1) (u + r) c un

/-- Look up the node at a path of child indices from the root of `t`. -/
def getPath : List ℕ → MCTree σ → Option (MCTree σ)
  | [], t => some t
  | i :: p, t => (t.children.get? i).bind (getPath p)

/-- Update the element at index `i` of a list with `f` (no-op when out of
range), used to push a backpropagation step into one child. -/
def modifyIdx (f : MCTree σ → MCTree σ) : ℕ → List (MCTree σ) → List (MCTree σ)
  | _, [] => []
  | 0, t :: ts => f t :: ts
  | i + 1, t :: ts => t :: modifyIdx f i ts

/-- `MCTSNode.backpropagate(result)`, started at the node reached by path `p`
with result `r`: the Python method adds `result` at the node, negates, and
recurses into the parent until the root.  Along the root-to-node path this
adds `(-1) ^ d * r` at the node `d` edges above the selected one and
increments every visit count on the path by 1. -/
def backprop : List ℕ → ℤ → MCTree σ → MCTree σ
  | [], r, t => bump r t
  | i :: p, r, .mk s a v u c un =>
      .mk s a (v + 1) (u + (-1) ^ (p.length + 1) * r) (modifyIdx (backprop p r) i c) un

/-- A member of the children list is structurally smaller than the node. -/
theorem sizeOf_child_lt [SizeOf σ] {c t : MCTree σ} (hc : c ∈ t.children) :
    sizeOf c < sizeOf t := by
  cases t with
  | mk s a v u ch un =>
    have h := List.sizeOf_lt_of_mem hc
    simp only [MCTree.children_mk] at h
    simp only [MCTree.mk.sizeOf_spec]
    omega

/-- `MCTSSearch.tree_policy`, one call: descend from `t`; at a terminal node
stop and select it; at a node that is not fully expanded, expand it and
select the new child; otherwise descend into `best_child(c_param=0.5)`.
Returns the tree after the (single) expansion together with the path from
`t` to the selected node.  `.error ()` models the exception raised when
`best_child` finds no candidate. -/
noncomputable def treePolicy (g : GameOps σ) (pk : ℕ) (t : MCTree σ) :
    Except Unit (MCTree σ × List ℕ) :=
  if g.terminalTest t.state then .ok (t, [])
  else if is_fully_expanded t then
    match bestChildIdx g (1 / 2 : ℝ) t with
    | none => .error ()
    | some i =>
      match hc : t.children.get? i with
      | none => .error ()
      | some c =>
        match treePolicy g pk c with
        | .error e => .error e
        | .ok (c1, p) => .ok (t.setChildren (t.children.set i c1), i :: p)
  else
    match expand g pk t with
    | none => .error ()
    | some (t1, l) => .ok (t1, [l])
termination_by sizeOf t
decreasing_by exact sizeOf_child_lt (List.get?_mem hc)

/-- One iteration of the search loop of `MCTSSearch.best_action`:
`v = self.tree_policy(); reward = v.playout_policy(...); v.backpropagate(reward)`.
The playout outcome is supplied by the oracle `r` (its value does not depend
on anything the engine controls, so quantifying over all `r : ℤ` covers every
possible rollout). -/
noncomputable def stepOnce (g : GameOps σ) (pk : ℕ) (r : ℤ) (t : MCTree σ) :
    Except Unit (MCTree σ) :=
  match treePolicy g pk t with
  | .error e => .error e
  | .ok (t1, p) => .ok (backprop p r t1)

/-- The search loop of `best_action`, run for `n` iterations (the wall-clock
cutoff is abstracted by `n`; the loop body is checked once per iteration).
`picks` and `rewards` are the oracle streams for the expansion choice and the
playout outcome of each iteration. -/
noncomputable def runLoop (g : GameOps σ) (picks : ℕ → ℕ) (rewards : ℕ → ℤ) :
    ℕ → MCTree σ → Except Unit (MCTree σ)
  | 0, t => .ok t
  | n + 1, t =>
    match runLoop g picks rewards n t with
    | .error e => .error e
    | .ok t1 => stepOnce g (picks n) (rewards n) t1

/-- The search loop instrumented with the history of selected paths, one per
completed iteration (used to state visit-count conservation). -/
noncomputable def runLoopH (g : GameOps σ) (picks : ℕ → ℕ) (rewards : ℕ → ℤ) :
    ℕ → MCTree σ → Except Unit (MCTree σ × List (List ℕ))
  | 0, t => .ok (t, [])
  | n + 1, t =>
    match runLoopH g picks rewards n t with
    | .error e => .error e
    | .ok (t1, hs) =>
      match treePolicy g (picks n) t1 with
      | .error e => .error e
      | .ok (t2, p) => .ok (backprop p (rewards n) t2, hs ++ [p])

/-- `math.ceil(simulations_time * 0.75)` from `best_action` (line 130):
the wall-clock deadline in milliseconds.  `0.75` is exactly representable in
binary floating point, so the rationals model the computation exactly. -/
def allowed_time (simulations_time : ℚ) : ℤ :=
  ⌈simulations_time * (3 / 4 : ℚ)⌉

/-- `MCTSSearch.best_action` after the loop: `next_node =
self.root.best_child(c_param); return next_node.action`.  There is no
"no children" test: with an empty `maxactions`, `best_child` raises
(`max` of an empty sequence), modelled by `.error ()`. -/
noncomputable def bestActionN (g : GameOps σ) (picks : ℕ → ℕ) (rewards : ℕ → ℤ)
    (n : ℕ) (c_param : ℝ) (root : MCTree σ) : Except Unit (Option ℤ) :=
  match runLoop g picks rewards n root with
  | .error e => .error e
  | .ok t =>
    match best_child g c_param t with
    | none => .error ()
    | some next_node => .ok next_node.action

/-- What `CustomPlayer.get_action` does with its turn: either it puts a value
on the queue (`put (some a)` for an action, `put none` for
`self.queue.put(None)`), or the blanket `except` swallows an exception and
nothing is put (`abandoned`). -/
inductive Submission where
  | put (a : Option ℤ)
  | abandoned
deriving DecidableEq

/-- Python truthiness of the engine result used in `if next_action:`
(`None` and the integer action `0` are falsy). -/
def truthy : Option ℤ → Bool
  | none => false
  | some a => a != 0

/-- `CustomPlayer.get_action`: terminal states and the first two plies get a
uniformly random action (`random.choice(state.actions())`, which raises on an
empty list — caught by the blanket `except`, abandoning the turn); otherwise
the engine runs with a 150 ms budget and weight 0.5, a truthy result is
submitted, a falsy one falls back to a random action when any exists, and
`None` is put when there are no actions.  `k1`, `k2` are the oracle draws for
the two `random.choice` calls; `n`, `picks`, `rewards` drive the engine. -/
noncomputable def get_action (g : GameOps σ) (s : σ) (ply : ℕ) (n : ℕ)
    (picks : ℕ → ℕ) (rewards : ℕ → ℤ) (k1 k2 : ℕ) : Submission :=
  if g.terminalTest s || decide (ply < 2) then
    match randomChoice k1 (g.actions s) with
    | none => .abandoned
    | some a => .put (some a)
  else
    match bestActionN g picks rewards n (1 / 2 : ℝ) (mkRoot g s) with
    | .error _ => .abandoned
    | .ok next_action =>
      if truthy next_action then .put next_action
      else if (g.actions s).isEmpty then .put none
      else
        match randomChoice k2 (g.actions s) with
        | none => .abandoned
        | some a => .put (some a)

@[simp] theorem bump_state (r : ℤ) (t : MCTree σ) : (bump r t).state = t.state := by
  cases t; rfl

@[simp] theorem bump_action (r : ℤ) (t : MCTree σ) : (bump r t).action = t.action := by
  cases t; rfl

@[simp] theorem bump_visit (r : ℤ) (t : MCTree σ) : (bump r t).visit = t.visit + 1 := by
  cases t; rfl

@[simp] theorem bump_utility (r : ℤ) (t : MCTree σ) : (bump r t).utility = t.utility + r := by
  cases t; rfl

@[simp] theorem bump_children (r : ℤ) (t : MCTree σ) : (bump r t).children = t.children := by
  cases t; rfl

@[simp] theorem bump_untried (r : ℤ) (t : MCTree σ) : (bump r t).untried = t.untried := by
  cases t; rfl

@[simp] theorem getPath_nil (t : MCTree σ) : getPath [] t = some t := rfl

theorem getPath_cons (i : ℕ) (p : List ℕ) (t : MCTree σ) :
    getPath (i :: p) t = (t.children.get? i).bind (getPath p) := rfl

@[simp] theorem length_modifyIdx (f : MCTree σ → MCTree σ) (i : ℕ) (l : List (MCTree σ)) :
    (modifyIdx f i l).length = l.length := by
  induction l generalizing i with
  | nil => cases i <;> rfl
  | cons t ts ih => cases i with
    | zero => rfl
    | succ j => simp [modifyIdx, ih]

theorem get?_modifyIdx_self (f : MCTree σ → MCTree σ) (i : ℕ) (l : List (MCTree σ)) :
    (modifyIdx f i l).get? i = (l.get? i).map f := by
  induction l generalizing i with
  | nil => cases i <;> rfl
  | cons t ts ih => cases i with
    | zero => rfl
    | succ j => simpa [modifyIdx] using ih j

theorem get?_modifyIdx_ne (f : MCTree σ → MCTree σ) (i j : ℕ) (l : List (MCTree σ))
    (h : j ≠ i) : (modifyIdx f i l).get? j = l.get? j := by
  induction l generalizing i j with
  | nil => cases i <;> rfl
  | cons t ts ih =>
    cases i with
    | zero => cases j with
      | zero => exact absurd rfl h
      | succ j2 => rfl
    | succ i2 => cases j with
      | zero => rfl
      | succ j2 => simpa [modifyIdx] using ih i2 j2 (fun hh => h (by omega))

theorem getPath_isSome_of_prefix {q p : List ℕ} (t : MCTree σ) (hqp : q <+: p)
    (hp : (getPath p t).isSome) : (getPath q t).isSome := by
  induction q generalizing p t with
  | nil => simp
  | cons j q2 ih =>
    cases p with
    | nil => exact absurd (List.eq_nil_of_prefix_nil hqp) (by simp)
    | cons i p2 =>
      rw [List.cons_prefix_cons] at hqp
      obtain ⟨rfl, hq2⟩ := hqp
      rw [getPath_cons] at hp ⊢
      cases hci : t.children.get? j with
      | none => rw [hci] at hp; simp at hp
      | some c =>
        rw [hci] at hp
        exact ih c hq2 hp

/-- Effect of a backpropagation call on every node of the tree: a node whose
path `q` lies on the updated path `p` gets `visit + 1` and
`utility + (-1) ^ (p.length - q.length) * result` (all other fields and the
number of children unchanged); every node off the path is untouched. -/
theorem backprop_getPath (p : List ℕ) (r : ℤ) (t : MCTree σ)
    (hp : (getPath p t).isSome) (q : List ℕ) :
    (¬ q <+: p → getPath q (backprop p r t) = getPath q t) ∧
    (q <+: p → ∀ u, getPath q t = some u → ∃ w, getPath q (backprop p r t) = some w ∧
      w.visit = u.visit + 1 ∧ w.utility = u.utility + (-1) ^ (p.length - q.length) * r ∧
      w.state = u.state ∧ w.action = u.action ∧ w.untried = u.untried ∧
      w.children.length = u.children.length) := by
  induction p generalizing t q with
  | nil =>
    constructor
    · intro hnp
      cases q with
      | nil => exact absurd (List.nil_prefix) hnp
      | cons j q2 => rw [getPath_cons, getPath_cons, backprop, bump_children]
    · intro hqp u hu
      have hq : q = [] := List.eq_nil_of_prefix_nil hqp
      subst hq
      simp only [getPath_nil, Option.some.injEq] at hu
      subst hu
      exact ⟨bump r t, rfl, by simp [backprop]⟩
  | cons i p2 ih =>
    cases t with
    | mk s a v u0 c un =>
      rw [getPath_cons] at hp
      cases hci : c.get? i with
      | none => rw [MCTree.children_mk, hci] at hp; simp at hp
      | some ci =>
        rw [MCTree.children_mk, hci] at hp
        simp only [Option.some_bind] at hp
        constructor
        · intro hnp
          cases q with
          | nil => exact absurd List.nil_prefix hnp
          | cons j q2 =>
            rw [getPath_cons, getPath_cons, backprop]
            simp only [MCTree.children_mk]
            by_cases hj : j = i
            · subst hj
              rw [get?_modifyIdx_self, hci]
              simp only [Option.map_some', Option.some_bind]
              have hq2 : ¬ q2 <+: p2 := by
                intro hh
                exact hnp (List.cons_prefix_cons.mpr ⟨rfl, hh⟩)
              exact (ih ci hp q2).1 hq2
            · rw [get?_modifyIdx_ne _ _ _ _ hj]
        · intro hqp w hw
          cases q with
          | nil =>
            simp only [getPath_nil, Option.some.injEq] at hw
            subst hw
            refine ⟨_, rfl, ?_⟩
            simp [backprop]
          | cons j q2 =>
            rw [List.cons_prefix_cons] at hqp
            obtain ⟨rfl, hq2⟩ := hqp
            rw [getPath_cons, MCTree.children_mk, hci] at hw
            simp only [Option.some_bind] at hw
            obtain ⟨w2, hw2, hrest⟩ := (ih ci hp q2).2 hq2 w hw
            refine ⟨w2, ?_, ?_⟩
            · rw [getPath_cons, backprop]
              simp only [MCTree.children_mk]
              rw [get?_modifyIdx_self, hci]
              simpa using hw2
            · simpa using hrest

theorem is_fully_expanded_iff (t : MCTree σ) : is_fully_expanded t = true ↔ t.untried = [] := by
  cases t with
  | mk s a v u c un => simp [is_fully_expanded, List.length_eq_zero]

/-- Every pair collected by the `best_child` loop comes from the initial
accumulator or from the traversed list. -/
theorem maxScoreFold_mem (score : MCTree σ → ℝ) (l : List (ℕ × MCTree σ))
    (m : ℝ) (acts : List (ℕ × MCTree σ)) :
    ∀ x ∈ (maxScoreFold score l (m, acts)).2, x ∈ acts ∨ x ∈ l := by
  induction l generalizing m acts with
  | nil => intro x hx; exact Or.inl hx
  | cons it ts ih =>
    obtain ⟨i, t⟩ := it
    intro x hx
    rw [maxScoreFold] at hx
    by_cases h1 : score t > m
    · rw [if_pos h1] at hx
      rcases ih _ _ x hx with h | h
      · simp only [List.mem_singleton] at h
        exact Or.inr (by simp [h])
      · exact Or.inr (List.mem_cons_of_mem _ h)
    · rw [if_neg h1] at hx
      by_cases h2 : score t = m
      · rw [if_pos h2] at hx
        rcases ih _ _ x hx with h | h
        · rcases List.mem_append.mp h with h | h
          · exact Or.inl h
          · simp only [List.mem_singleton] at h
            exact Or.inr (by simp [h])
        · exact Or.inr (List.mem_cons_of_mem _ h)
      · rw [if_neg h2] at hx
        rcases ih _ _ x hx with h | h
        · exact Or.inl h
        · exact Or.inr (List.mem_cons_of_mem _ h)

/-- When `best_child` returns an index, that index denotes an actual child. -/
theorem bestChildIdx_get? (g : GameOps σ) (c_param : ℝ) (t : MCTree σ) (i : ℕ)
    (h : bestChildIdx g c_param t = some i) : ∃ ci, t.children.get? i = some ci := by
  simp only [bestChildIdx] at h
  split at h
  · exact absurd h (by simp)
  · simp only [Option.map_eq_some'] at h
    obtain ⟨x, hx, hxi⟩ := h
    have hmem := List.get?_mem hx
    rcases maxScoreFold_mem (selectionScore c_param t.visit) t.children.enum
        (-999 : ℝ) [] x hmem with hh | hh
    · simp at hh
    · have := List.mem_enum_iff_get?.mp hh
      exact ⟨x.2, by rw [← hxi]; exact this⟩

/-- The per-node effect of one `tree_policy` call that returns normally:
the selected path is valid in the returned tree; every node of the input tree
persists at its path with visit, utility, state and action unchanged and its
untried list either unchanged or with one of its members removed; every node
of the output tree is either an old node with the same visit count or the
freshly expanded child (visit `0`) sitting at exactly the selected path,
which was not a valid path before. -/
def TPRel (t t1 : MCTree σ) (p : List ℕ) : Prop :=
  (getPath p t1).isSome ∧
  (∀ q u, getPath q t = some u → ∃ w, getPath q t1 = some w ∧
     w.visit = u.visit ∧ w.utility = u.utility ∧ w.state = u.state ∧ w.action = u.action ∧
     (w.untried = u.untried ∨ ∃ a, a ∈ u.untried ∧ w.untried = u.untried.erase a)) ∧
  (∀ q w, getPath q t1 = some w → (∃ u, getPath q t = some u ∧ w.visit = u.visit) ∨
     (q = p ∧ getPath q t = none ∧ w.visit = 0))

@[simp] theorem setChildren_children (t : MCTree σ) (l : List (MCTree σ)) :
    (t.setChildren l).children = l := by cases t; rfl

@[simp] theorem setChildren_state (t : MCTree σ) (l : List (MCTree σ)) :
    (t.setChildren l).state = t.state := by cases t; rfl

@[simp] theorem setChildren_action (t : MCTree σ) (l : List (MCTree σ)) :
    (t.setChildren l).action = t.action := by cases t; rfl

@[simp] theorem setChildren_visit (t : MCTree σ) (l : List (MCTree σ)) :
    (t.setChildren l).visit = t.visit := by cases t; rfl

@[simp] theorem setChildren_utility (t : MCTree σ) (l : List (MCTree σ)) :
    (t.setChildren l).utility = t.utility := by cases t; rfl

@[simp] theorem setChildren_untried (t : MCTree σ) (l : List (MCTree σ)) :
    (t.setChildren l).untried = t.untried := by cases t; rfl

theorem treePolicy_spec (g : GameOps σ) (pk : ℕ) (t : MCTree σ) :
    ∀ t1 p, treePolicy g pk t = Except.ok (t1, p) → TPRel t t1 p := by
  induction t using treePolicy.induct g pk with
  | case1 x hterm =>
    intro t1 p h
    rw [treePolicy, if_pos hterm] at h
    cases h
    refine ⟨by simp, ?_, ?_⟩
    · intro q u hu
      exact ⟨u, hu, rfl, rfl, rfl, rfl, Or.inl rfl⟩
    · intro q w hw
      exact Or.inl ⟨w, hw, rfl⟩
  | case2 x hterm hfull hbci =>
    intro t1 p h
    rw [treePolicy, if_neg hterm, if_pos hfull] at h
    simp only [hbci] at h
    exact absurd h (by simp)
  | case3 x hterm hfull i hbci hci =>
    intro t1 p h
    rw [treePolicy, if_neg hterm, if_pos hfull] at h
    simp only [hbci] at h
    split at h
    · exact absurd h (by simp)
    · next c2 heq =>
        rw [hci] at heq
        exact absurd heq (by simp)
  | case4 x hterm hfull i hbci c hci e hrec ih =>
    intro t1 p h
    rw [treePolicy, if_neg hterm, if_pos hfull] at h
    simp only [hbci] at h
    split at h
    · exact absurd h (by simp)
    · next c2 heq =>
        rw [hci] at heq
        injection heq with heq2
        subst heq2
        rw [hrec] at h
        exact absurd h (by simp)
  | case5 x hterm hfull i hbci c hci c1 p2 hrec ih =>
    intro t1 p h
    rw [treePolicy, if_neg hterm, if_pos hfull] at h
    simp only [hbci] at h
    split at h
    · exact absurd h (by simp)
    · next c2 heq =>
        rw [hci] at heq
        injection heq with heq2
        subst heq2
        rw [hrec] at h
        simp only [Except.ok.injEq, Prod.mk.injEq] at h
        obtain ⟨rfl, rfl⟩ := h
        obtain ⟨ih1, ih2, ih3⟩ := ih c1 p2 hrec
        have hilt : i < x.children.length := (List.get?_eq_some.mp hci).1
        constructor
        · rw [getPath_cons]
          simp only [setChildren_children]
          rw [List.get?_set_eq_of_lt _ hilt]
          simpa using ih1
        constructor
        · intro q u hu
          cases q with
          | nil =>
            simp only [getPath_nil, Option.some.injEq] at hu
            subst hu
            exact ⟨_, rfl, by simp, by simp, by simp, by simp, Or.inl (by simp)⟩
          | cons j q2 =>
            rw [getPath_cons] at hu
            by_cases hj : j = i
            · subst hj
              rw [hci] at hu
              simp only [Option.some_bind] at hu
              obtain ⟨w, hw, hrest⟩ := ih2 q2 u hu
              refine ⟨w, ?_, hrest⟩
              rw [getPath_cons]
              simp only [setChildren_children]
              rw [List.get?_set_eq_of_lt _ hilt]
              simpa using hw
            · refine ⟨u, ?_, rfl, rfl, rfl, rfl, Or.inl rfl⟩
              rw [getPath_cons]
              simp only [setChildren_children]
              rw [List.get?_set_ne _ _ (fun hh => hj hh.symm)]
              exact hu
        · intro q w hw
          cases q with
          | nil =>
            simp only [getPath_nil, Option.some.injEq] at hw
            subst hw
            exact Or.inl ⟨x, rfl, by simp⟩
          | cons j q2 =>
            rw [getPath_cons] at hw
            simp only [setChildren_children] at hw
            by_cases hj : j = i
            · subst hj
              rw [List.get?_set_eq_of_lt _ hilt] at hw
              simp only [Option.some_bind] at hw
              rcases ih3 q2 w hw with ⟨u, hu, hv⟩ | ⟨rfl, hnone, hv⟩
              · exact Or.inl ⟨u, by rw [getPath_cons, hci]; simpa using hu, hv⟩
              · refine Or.inr ⟨rfl, ?_, hv⟩
                rw [getPath_cons, hci]
                simpa using hnone
            · rw [List.get?_set_ne _ _ (fun hh => hj hh.symm)] at hw
              exact Or.inl ⟨w, by rw [getPath_cons]; exact hw, rfl⟩
  | case6 x hterm hfull hexp =>
    intro t1 p h
    rw [treePolicy, if_neg hterm, if_neg hfull] at h
    simp only [hexp] at h
    exact absurd h (by simp)
  | case7 x hterm hfull t2 l hexp =>
    intro t1 p h
    rw [treePolicy, if_neg hterm, if_neg hfull] at h
    simp only [hexp, Except.ok.injEq, Prod.mk.injEq] at h
    obtain ⟨rfl, rfl⟩ := h
    cases x with
    | mk s a v u0 ch un =>
      simp only [expand] at hexp
      cases hact : un.get? (pk % un.length) with
      | none => rw [hact] at hexp; simp at hexp
      | some act =>
        rw [hact] at hexp
        simp only [Option.some.injEq, Prod.mk.injEq] at hexp
        obtain ⟨rfl, rfl⟩ := hexp
        have hmem : act ∈ un := List.get?_mem hact
        constructor
        · rw [getPath_cons]
          simp only [MCTree.children_mk]
          rw [List.get?_append_right (le_refl _)]
          simp
        constructor
        · intro q u hu
          cases q with
          | nil =>
            simp only [getPath_nil, Option.some.injEq] at hu
            subst hu
            refine ⟨_, rfl, by simp, by simp, by simp, by simp, Or.inr ⟨act, ?_, by simp⟩⟩
            simpa using hmem
          | cons j q2 =>
            rw [getPath_cons] at hu
            simp only [MCTree.children_mk] at hu
            cases hcj : ch.get? j with
            | none => rw [hcj] at hu; simp at hu
            | some cj =>
              rw [hcj] at hu
              have hjlt : j < ch.length := (List.get?_eq_some.mp hcj).1
              refine ⟨u, ?_, rfl, rfl, rfl, rfl, Or.inl rfl⟩
              rw [getPath_cons]
              simp only [MCTree.children_mk]
              rw [List.get?_append hjlt, hcj]
              exact hu
        · intro q w hw
          cases q with
          | nil =>
            simp only [getPath_nil, Option.some.injEq] at hw
            subst hw
            exact Or.inl ⟨_, rfl, by simp⟩
          | cons j q2 =>
            rw [getPath_cons] at hw
            simp only [MCTree.children_mk] at hw
            rcases lt_trichotomy j ch.length with hj | hj | hj
            · rw [List.get?_append hj] at hw
              refine Or.inl ⟨w, ?_, rfl⟩
              rw [getPath_cons]
              simp only [MCTree.children_mk]
              exact hw
            · subst hj
              rw [List.get?_append_right (le_refl _)] at hw
              simp only [Nat.sub_self, List.get?_cons_zero, Option.some_bind] at hw
              cases q2 with
              | nil =>
                simp only [getPath_nil, Option.some.injEq] at hw
                subst hw
                refine Or.inr ⟨rfl, ?_, by simp [mkNode]⟩
                rw [getPath_cons]
                simp only [MCTree.children_mk]
                rw [List.get?_eq_none.mpr (le_refl _)]
                rfl
              | cons j2 q3 =>
                rw [getPath_cons] at hw
                simp only [mkNode, MCTree.children_mk] at hw
                simp at hw
            · rw [List.get?_eq_none.mpr (by simp; omega)] at hw
              simp at hw

theorem modifyIdx_set (f : MCTree σ → MCTree σ) (i : ℕ) (l : List (MCTree σ)) (x : MCTree σ) :
    modifyIdx f i (l.set i x) = l.set i (f x) := by
  induction l generalizing i with
  | nil => cases i <;> rfl
  | cons t ts ih => cases i with
    | zero => rfl
    | succ j => simp [modifyIdx, List.set, ih]

theorem modifyIdx_append_length (f : MCTree σ → MCTree σ) (l : List (MCTree σ)) (x : MCTree σ) :
    modifyIdx f l.length (l ++ [x]) = l ++ [f x] := by
  induction l with
  | nil => rfl
  | cons t ts ih => simp [modifyIdx, ih]

theorem set_get?_self (l : List (MCTree σ)) (i : ℕ) (a : MCTree σ) (h : l.get? i = some a) :
    l.set i a = l := by
  induction l generalizing i with
  | nil => cases i <;> rfl
  | cons t ts ih => cases i with
    | zero => simp at h; simp [List.set, h]
    | succ j => simp only [List.get?_cons_succ] at h; simp [List.set, ih j h]

theorem set_get?_self_opt (l : List (Option ℤ)) (i : ℕ) (a : Option ℤ) (h : l.get? i = some a) :
    l.set i a = l := by
  induction l generalizing i with
  | nil => cases i <;> rfl
  | cons t ts ih => cases i with
    | zero => simp at h; simp [List.set, h]
    | succ j => simp only [List.get?_cons_succ] at h; simp [List.set, ih j h]

theorem sum_map_set (l : List (MCTree σ)) (i : ℕ) (x c : MCTree σ)
    (hc : l.get? i = some c) :
    ((l.set i x).map MCTree.visit).sum + c.visit = (l.map MCTree.visit).sum + x.visit := by
  induction l generalizing i with
  | nil => cases i <;> simp at hc
  | cons t ts ih =>
    cases i with
    | zero =>
      simp only [List.get?_cons_zero, Option.some.injEq] at hc
      subst hc
      simp [List.set]
      omega
    | succ j =>
      simp only [List.get?_cons_succ] at hc
      have := ih j hc
      simp only [List.set, List.map_cons, List.sum_cons]
      omega

/-- The structural invariant of every node of an engine tree: all children
have been visited at least once; the node has at least as many visits as all
its children together; the incoming actions of the children together with
the remaining untried actions are a permutation of the legal actions of the
node's state. -/
def NodeInv (g : GameOps σ) (u : MCTree σ) : Prop :=
  (∀ c ∈ u.children, 1 ≤ c.visit) ∧
  (u.children.map MCTree.visit).sum ≤ u.visit ∧
  List.Perm (u.children.map MCTree.action ++ u.untried.map some)
    ((g.actions u.state).map some)

/-- `NodeInv` at every node of the tree. -/
def TreeInv (g : GameOps σ) (t : MCTree σ) : Prop :=
  ∀ q u, getPath q t = some u → NodeInv g u

theorem TreeInv.self {g : GameOps σ} {t : MCTree σ} (h : TreeInv g t) : NodeInv g t :=
  h [] t rfl

theorem TreeInv.child {g : GameOps σ} {t c : MCTree σ} {i : ℕ} (h : TreeInv g t)
    (hci : t.children.get? i = some c) : TreeInv g c := by
  intro q u hu
  apply h (i :: q)
  rw [getPath_cons, hci]
  simpa using hu

/-- A fresh node satisfies the invariant. -/
theorem treeInv_mkNode (g : GameOps σ) (s : σ) (a : Option ℤ) : TreeInv g (mkNode g s a) := by
  intro q u hu
  cases q with
  | nil =>
    simp only [getPath_nil, Option.some.injEq] at hu
    subst hu
    refine ⟨by simp [mkNode], by simp [mkNode], ?_⟩
    simp [mkNode]
  | cons j q2 =>
    rw [getPath_cons] at hu
    simp [mkNode] at hu

/-- One full search iteration (`tree_policy` followed by `backpropagate`)
preserves the tree invariant and increments the visit count of the node it
started from by exactly one, leaving its incoming action unchanged. -/
theorem step_inv (g : GameOps σ) (pk : ℕ) (t : MCTree σ) :
    ∀ r t1 p, treePolicy g pk t = Except.ok (t1, p) → TreeInv g t →
      TreeInv g (backprop p r t1) ∧ (backprop p r t1).visit = t.visit + 1 ∧
      (backprop p r t1).action = t.action := by
  induction t using treePolicy.induct g pk with
  | case1 x hterm =>
    intro r t1 p h hinv
    rw [treePolicy, if_pos hterm] at h
    cases h
    refine ⟨?_, by simp [backprop], by simp [backprop]⟩
    intro q u hu
    cases q with
    | nil =>
      simp only [backprop, getPath_nil, Option.some.injEq] at hu
      subst hu
      obtain ⟨h1, h2, h3⟩ := hinv.self
      exact ⟨by simpa using h1, by simp; omega, by simpa using h3⟩
    | cons j q2 =>
      rw [getPath_cons] at hu
      simp only [backprop, bump_children] at hu
      exact hinv (j :: q2) u (by rw [getPath_cons]; exact hu)
  | case2 x hterm hfull hbci =>
    intro r t1 p h hinv
    rw [treePolicy, if_neg hterm, if_pos hfull] at h
    simp only [hbci] at h
    exact absurd h (by simp)
  | case3 x hterm hfull i hbci hci =>
    intro r t1 p h hinv
    rw [treePolicy, if_neg hterm, if_pos hfull] at h
    simp only [hbci] at h
    split at h
    · exact absurd h (by simp)
    · next c2 heq =>
        rw [hci] at heq
        exact absurd heq (by simp)
  | case4 x hterm hfull i hbci c hci e hrec ih =>
    intro r t1 p h hinv
    rw [treePolicy, if_neg hterm, if_pos hfull] at h
    simp only [hbci] at h
    split at h
    · exact absurd h (by simp)
    · next c2 heq =>
        rw [hci] at heq
        injection heq with heq2
        subst heq2
        rw [hrec] at h
        exact absurd h (by simp)
  | case5 x hterm hfull i hbci c hci c1 p2 hrec ih =>
    intro r t1 p h hinv
    rw [treePolicy, if_neg hterm, if_pos hfull] at h
    simp only [hbci] at h
    split at h
    · exact absurd h (by simp)
    · next c2 heq =>
        rw [hci] at heq
        injection heq with heq2
        subst heq2
        rw [hrec] at h
        simp only [Except.ok.injEq, Prod.mk.injEq] at h
        obtain ⟨rfl, rfl⟩ := h
        obtain ⟨hcinv, hcvis, hcact⟩ := ih r c1 p2 hrec (hinv.child hci)
        have hilt : i < x.children.length := (List.get?_eq_some.mp hci).1
        cases x with
        | mk s a v u0 ch un =>
          simp only [MCTree.children_mk] at hci hilt
          simp only [MCTree.setChildren_mk, backprop, modifyIdx_set]
          refine ⟨?_, by simp, by simp⟩
          intro q w hw
          cases q with
          | nil =>
            simp only [getPath_nil, Option.some.injEq] at hw
            subst hw
            obtain ⟨h1, h2, h3⟩ := hinv.self
            simp only [MCTree.children_mk, MCTree.untried_mk, MCTree.state_mk,
              MCTree.visit_mk] at h1 h2 h3
            refine ⟨?_, ?_, ?_⟩
            · intro d hd
              simp only [MCTree.children_mk] at hd
              rcases List.mem_or_eq_of_mem_set hd with hd2 | hd2
              · exact h1 d hd2
              · subst hd2; rw [hcvis]; omega
            · simp only [MCTree.children_mk, MCTree.visit_mk]
              have := sum_map_set ch i (backprop p2 r c1) c hci
              rw [hcvis] at this
              omega
            · simp only [MCTree.children_mk, MCTree.untried_mk, MCTree.state_mk]
              rw [List.map_set, hcact]
              rw [set_get?_self_opt _ i c.action (by rw [List.get?_map, hci]; rfl)]
              exact h3
          | cons j q2 =>
            rw [getPath_cons] at hw
            simp only [MCTree.children_mk] at hw
            by_cases hj : j = i
            · subst hj
              rw [List.get?_set_eq_of_lt _ hilt] at hw
              simp only [Option.some_bind] at hw
              exact hcinv q2 w hw
            · rw [List.get?_set_ne _ _ (fun hh => hj hh.symm)] at hw
              exact hinv (j :: q2) w (by rw [getPath_cons, MCTree.children_mk]; exact hw)
  | case6 x hterm hfull hexp =>
    intro r t1 p h hinv
    rw [treePolicy, if_neg hterm, if_neg hfull] at h
    simp only [hexp] at h
    exact absurd h (by simp)
  | case7 x hterm hfull t2 l hexp =>
    intro r t1 p h hinv
    rw [treePolicy, if_neg hterm, if_neg hfull] at h
    simp only [hexp, Except.ok.injEq, Prod.mk.injEq] at h
    obtain ⟨rfl, rfl⟩ := h
    cases x with
    | mk s a v u0 ch un =>
      simp only [expand] at hexp
      cases hact : un.get? (pk % un.length) with
      | none => rw [hact] at hexp; simp at hexp
      | some act =>
        rw [hact] at hexp
        simp only [Option.some.injEq, Prod.mk.injEq] at hexp
        obtain ⟨rfl, rfl⟩ := hexp
        have hmem : act ∈ un := List.get?_mem hact
        simp only [backprop, List.length_nil, Nat.zero_add, pow_one, MCTree.children_mk,
          modifyIdx_append_length]
        refine ⟨?_, by simp, by simp⟩
        intro q w hw
        cases q with
        | nil =>
          simp only [getPath_nil, Option.some.injEq] at hw
          subst hw
          obtain ⟨h1, h2, h3⟩ := hinv.self
          simp only [MCTree.children_mk, MCTree.untried_mk, MCTree.state_mk,
            MCTree.visit_mk] at h1 h2 h3
          refine ⟨?_, ?_, ?_⟩
          · intro d hd
            simp only [MCTree.children_mk] at hd
            rcases List.mem_append.mp hd with hd2 | hd2
            · exact h1 d hd2
            · simp only [List.mem_singleton] at hd2
              subst hd2
              simp [bump, mkNode]
          · simp only [MCTree.children_mk, MCTree.visit_mk, List.map_append, List.sum_append]
            simp [bump, mkNode]
            omega
          · simp only [MCTree.children_mk, MCTree.untried_mk, MCTree.state_mk,
              List.map_append]
            have hba : (bump r (mkNode g (g.result s act) (some act))).action = some act := by
              simp [bump, mkNode]
            rw [List.map_singleton, hba]
            rw [List.append_assoc, List.singleton_append]
            have hperm : List.Perm (un.map (some : ℤ → Option ℤ))
                (some act :: (un.erase act).map some) :=
              (List.perm_cons_erase hmem).map some
            exact (List.Perm.append_left _ hperm.symm).trans h3
        | cons j q2 =>
          rw [getPath_cons] at hw
          simp only [MCTree.children_mk] at hw
          rcases lt_trichotomy j ch.length with hj | hj | hj
          · rw [List.get?_append hj] at hw
            exact hinv (j :: q2) w (by rw [getPath_cons, MCTree.children_mk]; exact hw)
          · subst hj
            rw [List.get?_append_right (le_refl _)] at hw
            simp only [Nat.sub_self, List.get?_cons_zero, Option.some_bind] at hw
            cases q2 with
            | nil =>
              simp only [getPath_nil, Option.some.injEq] at hw
              subst hw
              refine ⟨by simp [bump, mkNode], by simp [bump, mkNode], ?_⟩
              simp [bump, mkNode]
            | cons j2 q3 =>
              rw [getPath_cons] at hw
              simp only [bump, mkNode, MCTree.children_mk] at hw
              simp at hw
          · rw [List.get?_eq_none.mpr (by simp; omega)] at hw
            simp at hw

/-- The per-iteration effect of one search iteration on the nodes of the
tree: there is a single pass path `p` (valid in the new tree) such that every
old node persists with its visit count incremented exactly when its path is a
prefix of `p` (an empty untried list stays empty), and every node of the new
tree is an old node except possibly the freshly created node at exactly `p`,
which was absent before and now has visit count `1`. -/
theorem step_paths_at (g : GameOps σ) (pk : ℕ) (r : ℤ) (t t1 : MCTree σ) (p : List ℕ)
    (htp : treePolicy g pk t = Except.ok (t1, p)) :
    (getPath p (backprop p r t1)).isSome ∧
    (∀ q u, getPath q t = some u → ∃ w, getPath q (backprop p r t1) = some w ∧
      w.visit = u.visit + (if q <+: p then 1 else 0) ∧
      (u.untried = [] → w.untried = [])) ∧
    (∀ q w, getPath q (backprop p r t1) = some w →
      (∃ u, getPath q t = some u) ∨ (q = p ∧ getPath q t = none ∧ w.visit = 1)) := by
  obtain ⟨s1, s2, s3⟩ := treePolicy_spec g pk t t1 p htp
  refine ⟨?_, ?_, ?_⟩
  · cases hsel : getPath p t1 with
    | none => rw [hsel] at s1; simp at s1
    | some sel =>
      obtain ⟨w, hw, -⟩ := (backprop_getPath p r t1 s1 p).2 (List.prefix_refl p) sel hsel
      rw [hw]
      rfl
  · intro q u hu
    obtain ⟨w1, hw1, hv1, -, -, -, hun1⟩ := s2 q u hu
    by_cases hqp : q <+: p
    · obtain ⟨w, hw, hwv, -, -, -, hwun, -⟩ :=
        (backprop_getPath p r t1 s1 q).2 hqp w1 hw1
      refine ⟨w, hw, ?_, ?_⟩
      · rw [if_pos hqp]; omega
      · intro he
        rw [hwun]
        rcases hun1 with hh | ⟨a2, ha2, hh⟩
        · rw [hh, he]
        · rw [he] at ha2; simp at ha2
    · have hD := (backprop_getPath p r t1 s1 q).1 hqp
      refine ⟨w1, by rw [hD]; exact hw1, by rw [if_neg hqp]; omega, ?_⟩
      intro he
      rcases hun1 with hh | ⟨a2, ha2, hh⟩
      · rw [hh, he]
      · rw [he] at ha2; simp at ha2
  · intro q w hw
    by_cases hqp : q <+: p
    · have hq1 : (getPath q t1).isSome := getPath_isSome_of_prefix t1 hqp s1
      cases hw1 : getPath q t1 with
      | none => rw [hw1] at hq1; simp at hq1
      | some w1 =>
        obtain ⟨w2, hw2, hv2, -⟩ := (backprop_getPath p r t1 s1 q).2 hqp w1 hw1
        rw [hw] at hw2
        injection hw2 with hw2
        rcases s3 q w1 hw1 with ⟨u, hu, -⟩ | ⟨hq, hnone, hv0⟩
        · exact Or.inl ⟨u, hu⟩
        · refine Or.inr ⟨hq, hnone, ?_⟩
          rw [← hw2] at hv2
          omega
    · have hD := (backprop_getPath p r t1 s1 q).1 hqp
      rw [hD] at hw
      rcases s3 q w hw with ⟨u, hu, -⟩ | ⟨rfl, -, -⟩
      · exact Or.inl ⟨u, hu⟩
      · exact absurd (List.prefix_refl _) hqp

/-- Running the loop preserves the tree invariant and adds exactly one visit
to the starting node per completed iteration. -/
theorem runLoop_inv (g : GameOps σ) (picks : ℕ → ℕ) (rewards : ℕ → ℤ) (n : ℕ)
    (t0 : MCTree σ) (hinv : TreeInv g t0) :
    ∀ t, runLoop g picks rewards n t0 = Except.ok t →
      TreeInv g t ∧ t.visit = t0.visit + n ∧ t.action = t0.action := by
  induction n with
  | zero =>
    intro t h
    rw [runLoop] at h
    simp only [Except.ok.injEq] at h
    subst h
    exact ⟨hinv, rfl, rfl⟩
  | succ n ih =>
    intro t h
    rw [runLoop] at h
    cases hrn : runLoop g picks rewards n t0 with
    | error e => rw [hrn] at h; simp at h
    | ok t1 =>
      rw [hrn] at h
      obtain ⟨hinv1, hv1, ha1⟩ := ih t1 hrn
      simp only [stepOnce] at h
      cases htp : treePolicy g (picks n) t1 with
      | error e => rw [htp] at h; simp at h
      | ok pr =>
        obtain ⟨t2, p⟩ := pr
        rw [htp] at h
        simp only [Except.ok.injEq] at h
        subst h
        obtain ⟨hi, hv, ha⟩ := step_inv g (picks n) t1 (rewards n) t2 p htp hinv1
        exact ⟨hi, by omega, by rw [ha, ha1]⟩

/-- Nodes persist across loop iterations: a node reachable at path `q` stays
reachable, its visit count never decreases, and an exhausted untried list
stays exhausted. -/
theorem runLoop_persist (g : GameOps σ) (picks : ℕ → ℕ) (rewards : ℕ → ℤ) (n : ℕ)
    (t0 : MCTree σ) :
    ∀ t, runLoop g picks rewards n t0 = Except.ok t →
      ∀ q u, getPath q t0 = some u → ∃ w, getPath q t = some w ∧
        u.visit ≤ w.visit ∧ (u.untried = [] → w.untried = []) := by
  induction n with
  | zero =>
    intro t h q u hu
    rw [runLoop] at h
    simp only [Except.ok.injEq] at h
    subst h
    exact ⟨u, hu, le_refl _, fun he => he⟩
  | succ n ih =>
    intro t h q u hu
    rw [runLoop] at h
    cases hrn : runLoop g picks rewards n t0 with
    | error e => rw [hrn] at h; simp at h
    | ok t1 =>
      rw [hrn] at h
      obtain ⟨w1, hw1, hv1, hun1⟩ := ih t1 hrn q u hu
      simp only [stepOnce] at h
      cases htp : treePolicy g (picks n) t1 with
      | error e => rw [htp] at h; simp at h
      | ok pr =>
        obtain ⟨t2, p⟩ := pr
        rw [htp] at h
        simp only [Except.ok.injEq] at h
        subst h
        obtain ⟨-, hold, -⟩ := step_paths_at g (picks n) (rewards n) t1 t2 p htp
        obtain ⟨w, hw, hv, hun⟩ := hold q w1 hw1
        refine ⟨w, hw, by split at hv <;> omega, fun he => hun (hun1 he)⟩

theorem countP_singleton_prefix (q p : List ℕ) :
    List.countP (fun p2 => q.isPrefixOf p2) [p] = if q <+: p then 1 else 0 := by
  simp only [List.countP_cons, List.countP_nil, Nat.zero_add]
  by_cases hqp : q <+: p
  · rw [if_pos (List.isPrefixOf_iff_prefix.mpr hqp), if_pos hqp]
  · rw [if_neg (fun hh => hqp (List.isPrefixOf_iff_prefix.mp hh)), if_neg hqp]

/-- Visit-count conservation along the instrumented loop: the histories line
up with the plain loop, one pass per completed iteration, every recorded pass
path is valid in the final tree, and the visit count of every node of the
final tree is its initial visit count (`0` for nodes created during the
search) plus the number of recorded passes whose path it lies on. -/
theorem runLoopH_spec (g : GameOps σ) (picks : ℕ → ℕ) (rewards : ℕ → ℤ) (n : ℕ)
    (t0 : MCTree σ) :
    ∀ t hs, runLoopH g picks rewards n t0 = Except.ok (t, hs) →
      runLoop g picks rewards n t0 = Except.ok t ∧
      hs.length = n ∧
      (∀ p2 ∈ hs, (getPath p2 t).isSome) ∧
      (∀ q w, getPath q t = some w →
        (∃ u, getPath q t0 = some u ∧
          w.visit = u.visit + hs.countP (fun p2 => q.isPrefixOf p2)) ∨
        (getPath q t0 = none ∧ w.visit = hs.countP (fun p2 => q.isPrefixOf p2))) := by
  induction n with
  | zero =>
    intro t hs h
    rw [runLoopH] at h
    simp only [Except.ok.injEq, Prod.mk.injEq] at h
    obtain ⟨rfl, rfl⟩ := h
    refine ⟨rfl, rfl, by simp, ?_⟩
    intro q w hw
    exact Or.inl ⟨w, hw, by simp⟩
  | succ n ih =>
    intro t hs h
    rw [runLoopH] at h
    cases hrn : runLoopH g picks rewards n t0 with
    | error e => rw [hrn] at h; simp at h
    | ok pr =>
      obtain ⟨t1, hs1⟩ := pr
      rw [hrn] at h
      dsimp only at h
      cases htp : treePolicy g (picks n) t1 with
      | error e => rw [htp] at h; simp at h
      | ok pr2 =>
        obtain ⟨t2, p⟩ := pr2
        rw [htp] at h
        simp only [Except.ok.injEq, Prod.mk.injEq] at h
        obtain ⟨rfl, rfl⟩ := h
        obtain ⟨hrun1, hlen1, hvalid1, hcount1⟩ := ih t1 hs1 hrn
        obtain ⟨sp1, sp2, sp3⟩ := step_paths_at g (picks n) (rewards n) t1 t2 p htp
        have hrun : runLoop g picks rewards (n + 1) t0
            = Except.ok (backprop p (rewards n) t2) := by
          rw [runLoop, hrun1]
          simp only [stepOnce, htp]
        refine ⟨hrun, by simp [hlen1], ?_, ?_⟩
        · intro p2 hp2
          rcases List.mem_append.mp hp2 with hp2 | hp2
          · have hv1 := hvalid1 p2 hp2
            cases hw1 : getPath p2 t1 with
            | none => rw [hw1] at hv1; simp at hv1
            | some w1 =>
              obtain ⟨w, hw, -⟩ := sp2 p2 w1 hw1
              rw [hw]
              rfl
          · simp only [List.mem_singleton] at hp2
            subst hp2
            exact sp1
        · intro q w hw
          rcases sp3 q w hw with ⟨u1, hu1⟩ | ⟨rfl, hnone1, hv1⟩
          · obtain ⟨w2, hw2, hv2, -⟩ := sp2 q u1 hu1
            rw [hw] at hw2
            injection hw2 with hw2
            subst hw2
            rcases hcount1 q u1 hu1 with ⟨u0, hu0, hc0⟩ | ⟨hn0, hc0⟩
            · refine Or.inl ⟨u0, hu0, ?_⟩
              rw [List.countP_append, countP_singleton_prefix]
              by_cases hqp : q <+: p
              · rw [if_pos hqp] at hv2 ⊢
                omega
              · rw [if_neg hqp] at hv2 ⊢
                omega
            · refine Or.inr ⟨hn0, ?_⟩
              rw [List.countP_append, countP_singleton_prefix]
              by_cases hqp : q <+: p
              · rw [if_pos hqp] at hv2 ⊢
                omega
              · rw [if_neg hqp] at hv2 ⊢
                omega
          · have hn0 : getPath q t0 = none := by
              cases hg0 : getPath q t0 with
              | none => rfl
              | some u0 =>
                obtain ⟨w1, hw1, -⟩ := runLoop_persist g picks rewards n t0 t1 hrun1 q u0 hg0
                rw [hw1] at hnone1
                exact absurd hnone1 (by simp)
            refine Or.inr ⟨hn0, ?_⟩
            have hcz : hs1.countP (fun p2 => q.isPrefixOf p2) = 0 := by
              rw [List.countP_eq_zero]
              intro p2 hp2
              simp only [List.isPrefixOf_iff_prefix]
              intro hpre
              have hv2 := hvalid1 p2 hp2
              have := getPath_isSome_of_prefix t1 hpre hv2
              rw [hnone1] at this
              simp at this
            rw [List.countP_append, hcz, countP_singleton_prefix,
              if_pos (List.prefix_refl q)]
            omega

/-- Running maximum of the selection scores, seeded with the sentinel used by
`best_child` (`maxscore = -999`). -/
noncomputable def foldMax (score : MCTree σ → ℝ) (l : List (ℕ × MCTree σ)) (a : ℝ) : ℝ :=
  l.foldl (fun acc x => max acc (score x.2)) a

theorem foldMax_cons (score : MCTree σ → ℝ) (x : ℕ × MCTree σ) (xs : List (ℕ × MCTree σ))
    (a : ℝ) : foldMax score (x :: xs) a = foldMax score xs (max a (score x.2)) := rfl

theorem le_foldMax (score : MCTree σ → ℝ) (l : List (ℕ × MCTree σ)) :
    ∀ a, a ≤ foldMax score l a := by
  induction l with
  | nil => intro a; exact le_refl a
  | cons x xs ih =>
    intro a
    exact le_trans (le_max_left a (score x.2)) (ih (max a (score x.2)))

theorem score_le_foldMax (score : MCTree σ → ℝ) (l : List (ℕ × MCTree σ)) :
    ∀ a, ∀ x ∈ l, score x.2 ≤ foldMax score l a := by
  induction l with
  | nil => simp
  | cons y ys ih =>
    intro a x hx
    rcases List.mem_cons.mp hx with rfl | hx
    · exact le_trans (le_max_right a (score x.2)) (le_foldMax score ys _)
    · exact ih _ x hx

theorem foldMax_attained (score : MCTree σ → ℝ) (l : List (ℕ × MCTree σ)) :
    ∀ a, foldMax score l a = a ∨ ∃ x ∈ l, score x.2 = foldMax score l a := by
  induction l with
  | nil => intro a; exact Or.inl rfl
  | cons y ys ih =>
    intro a
    rcases ih (max a (score y.2)) with h | ⟨x, hx, hsc⟩
    · rcases le_or_lt (score y.2) a with hle | hlt
      · exact Or.inl (by rw [foldMax_cons, h, max_eq_left hle])
      · exact Or.inr ⟨y, List.mem_cons_self y ys,
          by rw [foldMax_cons, h, max_eq_right hlt.le]⟩
    · exact Or.inr ⟨x, List.mem_cons_of_mem _ hx, by rw [foldMax_cons]; exact hsc⟩

/-- Closed form of the `best_child` accumulation loop: the final `maxscore`
is the running maximum of the scores (seeded with the initial value), and the
final `maxactions` keeps the incoming accumulator only when the maximum never
improved on it, followed by all traversed entries attaining the maximum. -/
theorem maxScoreFold_eq (score : MCTree σ → ℝ) :
    ∀ (l : List (ℕ × MCTree σ)) (m : ℝ) (acts : List (ℕ × MCTree σ)),
    maxScoreFold score l (m, acts) =
      (foldMax score l m,
        (if foldMax score l m = m then acts else []) ++
          l.filter (fun x => decide (score x.2 = foldMax score l m))) := by
  intro l
  induction l with
  | nil => intro m acts; simp [maxScoreFold, foldMax]
  | cons y ys ih =>
    obtain ⟨i, t⟩ := y
    intro m acts
    rw [maxScoreFold]
    by_cases h1 : score t > m
    · rw [if_pos h1, ih, List.filter_cons]
      have hM : foldMax score ((i, t) :: ys) m = foldMax score ys (score t) := by
        rw [foldMax_cons]
        congr 1
        exact max_eq_right h1.le
      have hgt : m < foldMax score ys (score t) :=
        lt_of_lt_of_le h1 (le_foldMax score ys (score t))
      rw [hM, if_neg (fun (hh : foldMax score ys (score t) = m) =>
        absurd (hh ▸ hgt) (lt_irrefl m)), List.nil_append]
      simp only [Prod.mk.injEq, decide_eq_true_eq]
      refine ⟨by trivial, ?_⟩
      by_cases h2 : score t = foldMax score ys (score t)
      · rw [if_pos h2.symm, if_pos h2]
        rfl
      · rw [if_neg (fun hh => h2 hh.symm), if_neg h2]
        rfl
    · by_cases h2 : score t = m
      · rw [if_neg h1, if_pos h2, ih, List.filter_cons]
        have hM : foldMax score ((i, t) :: ys) m = foldMax score ys m := by
          rw [foldMax_cons, h2, max_self]
        rw [hM]
        simp only [Prod.mk.injEq, decide_eq_true_eq]
        refine ⟨by trivial, ?_⟩
        by_cases h3 : foldMax score ys m = m
        · rw [if_pos h3, if_pos h3, if_pos (by rw [h2]; exact h3.symm)]
          rw [List.append_assoc]
          rfl
        · rw [if_neg h3, if_neg h3, if_neg (fun (hh : score t = foldMax score ys m) =>
            h3 (hh.symm.trans h2))]
          try rfl
      · have h1c : score t < m := lt_of_le_of_ne (not_lt.mp h1) h2
        rw [if_neg h1, if_neg h2, ih, List.filter_cons]
        have hM : foldMax score ((i, t) :: ys) m = foldMax score ys m := by
          rw [foldMax_cons, max_eq_left h1c.le]
        rw [hM]
        simp only [Prod.mk.injEq, decide_eq_true_eq]
        have hlt : score t < foldMax score ys m := lt_of_lt_of_le h1c (le_foldMax score ys m)
        rw [if_neg (fun (hh : score t = foldMax score ys m) =>
          absurd (hh ▸ hlt) (lt_irrefl _))]
        exact ⟨by trivial, rfl⟩

/-- The final value of `maxscore` in `best_child`: the running maximum of
the children's selection scores seeded with the sentinel `-999`. -/
noncomputable def maxSelScore (w : ℝ) (t : MCTree σ) : ℝ :=
  foldMax (selectionScore w t.visit) t.children.enum (-999)

/-- The children attaining the final `maxscore` (in child order): the
`maxactions` list of `best_child`, as nodes. -/
noncomputable def scoreMaxCands (w : ℝ) (t : MCTree σ) : List (MCTree σ) :=
  t.children.filter (fun c => decide (selectionScore w t.visit c = maxSelScore w t))

/-- Modelled from the spec: the tie-break described by claim C2 — among the
candidates, return the first one attaining the greatest heuristic value
(`helper_scores.index(max(helper_scores))`), `none` when there are no
candidates. -/
def tieBreakFirstMax (h : MCTree σ → ℤ) (cands : List (MCTree σ)) : Option (MCTree σ) :=
  match (cands.map h).max? with
  | none => none
  | some m => cands.find? (fun c => h c == m)

theorem filter_enumFrom_map_snd (P : MCTree σ → Bool) :
    ∀ (n : ℕ) (l : List (MCTree σ)),
    ((List.enumFrom n l).filter (fun x => P x.2)).map Prod.snd = l.filter P := by
  intro n l
  induction l generalizing n with
  | nil => rfl
  | cons c cs ih =>
    simp only [List.enumFrom_cons, List.filter_cons]
    by_cases h : P c
    · rw [if_pos (by simpa using h), if_pos h]
      simp only [List.map_cons]
      rw [ih]
    · rw [if_neg (by simpa using h), if_neg h]
      exact ih (n + 1)

theorem filter_enum_map_snd (P : MCTree σ → Bool) (l : List (MCTree σ)) :
    ((l.enum).filter (fun x => P x.2)).map Prod.snd = l.filter P :=
  filter_enumFrom_map_snd P 0 l

/-- `maxactions[helper_scores.index(mz)]`, looked up in the children list,
is the first candidate whose helper score is `mz`. -/
theorem get?_indexOf_bind (g : GameOps σ) (ch : List (MCTree σ)) :
    ∀ (A : List (ℕ × MCTree σ)), (∀ x ∈ A, ch.get? x.1 = some x.2) → ∀ mz : ℤ,
    ((A.get? ((A.map (fun x => heuristic_score g x.2.state)).indexOf mz)).bind
        (fun x => ch.get? x.1))
      = (A.map Prod.snd).find? (fun c => heuristic_score g c.state == mz) := by
  intro A
  induction A with
  | nil => intro _ mz; rfl
  | cons x xs ih =>
    intro hA mz
    simp only [List.map_cons]
    by_cases hx : heuristic_score g x.2.state = mz
    · rw [List.indexOf_cons_eq _ (by exact hx)]
      simp only [List.get?_cons_zero, Option.some_bind]
      rw [hA x (List.mem_cons_self x xs)]
      rw [List.find?_cons_of_pos _ (by simpa using hx)]
    · rw [List.indexOf_cons_ne _ (by exact hx)]
      simp only [List.get?_cons_succ]
      rw [List.find?_cons_of_neg _ (by simpa using hx)]
      exact ih (fun y hy => hA y (List.mem_cons_of_mem x hy)) mz

/-- `best_child` in closed form: among the children attaining the final
`maxscore`, return the first one with the greatest `heuristic_score` of its
state (and `none` when no child attains it, the case in which the Python
code raises). -/
theorem best_child_eq_tieBreak (g : GameOps σ) (w : ℝ) (t : MCTree σ) :
    best_child g w t
      = tieBreakFirstMax (fun c => heuristic_score g c.state) (scoreMaxCands w t) := by
  have hsM : scoreMaxCands w t = (t.children.enum.filter
      (fun x => decide (selectionScore w t.visit x.2 = maxSelScore w t))).map Prod.snd := by
    rw [scoreMaxCands]
    exact (filter_enum_map_snd _ _).symm
  have hA : ∀ x ∈ t.children.enum.filter
      (fun x => decide (selectionScore w t.visit x.2 = maxSelScore w t)),
      t.children.get? x.1 = some x.2 := by
    intro x hx
    exact List.mem_enum_iff_get?.mp (List.mem_of_mem_filter hx)
  have hmaps : (scoreMaxCands w t).map (fun c => heuristic_score g c.state)
      = (t.children.enum.filter
          (fun x => decide (selectionScore w t.visit x.2 = maxSelScore w t))).map
            (fun x => heuristic_score g x.2.state) := by
    rw [hsM, List.map_map]
    rfl
  simp only [best_child, bestChildIdx, maxScoreFold_eq, ite_self, List.nil_append,
    tieBreakFirstMax]
  rw [← maxSelScore, ← hmaps]
  cases hmax : ((scoreMaxCands w t).map (fun c => heuristic_score g c.state)).max? with
  | none => rfl
  | some mz =>
    rw [hmaps]
    have hbind : (Option.map (fun x => x.1)
        ((t.children.enum.filter
          (fun x => decide (selectionScore w t.visit x.2 = maxSelScore w t))).get?
            (((t.children.enum.filter
              (fun x => decide (selectionScore w t.visit x.2 = maxSelScore w t))).map
                (fun x => heuristic_score g x.2.state)).indexOf mz))).bind
          (fun i => t.children.get? i)
        = (((t.children.enum.filter
            (fun x => decide (selectionScore w t.visit x.2 = maxSelScore w t))).map
              Prod.snd).find? (fun c => heuristic_score g c.state == mz)) := by
      rw [← get?_indexOf_bind g t.children _ hA mz]
      cases ((t.children.enum.filter
          (fun x => decide (selectionScore w t.visit x.2 = maxSelScore w t))).get?
            (((t.children.enum.filter
              (fun x => decide (selectionScore w t.visit x.2 = maxSelScore w t))).map
                (fun x => heuristic_score g x.2.state)).indexOf mz)) with
      | none => rfl
      | some x => rfl
    rw [hbind, ← hsM]

/-- When at least one child scores at least the sentinel `-999`, the final
`maxscore` is the true maximum of the children's selection scores and is
attained by some child. -/
theorem maxSelScore_is_max (w : ℝ) (t : MCTree σ)
    (hs : ∃ c ∈ t.children, (-999 : ℝ) ≤ selectionScore w t.visit c) :
    (∀ c ∈ t.children, selectionScore w t.visit c ≤ maxSelScore w t) ∧
    (∃ c ∈ t.children, selectionScore w t.visit c = maxSelScore w t) := by
  have hub : ∀ c ∈ t.children, selectionScore w t.visit c ≤ maxSelScore w t := by
    intro c hc
    obtain ⟨i, hi⟩ := List.get?_of_mem hc
    have : (i, c) ∈ t.children.enum := List.mem_enum_iff_get?.mpr hi
    exact score_le_foldMax (selectionScore w t.visit) t.children.enum (-999) (i, c) this
  refine ⟨hub, ?_⟩
  rcases foldMax_attained (selectionScore w t.visit) t.children.enum (-999) with h | ⟨x, hx, hsc⟩
  · obtain ⟨c0, hc0, hge⟩ := hs
    refine ⟨c0, hc0, le_antisymm (hub c0 hc0) ?_⟩
    rw [maxSelScore, h]
    exact hge
  · have hmem : x.2 ∈ t.children := by
      have := List.mem_enum_iff_get?.mp hx
      exact List.get?_mem this
    exact ⟨x.2, hmem, hsc⟩

/-- A minimal game used for concrete runs: state `0` is the only
non-terminal state, with the single legal action `7` leading to the terminal
state `1`. -/
def gW : GameOps ℕ where
  player := fun s => s % 2
  actions := fun s => if s = 0 then [7] else []
  result := fun s _ => s + 1
  terminalTest := fun s => decide (s ≠ 0)
  locs := fun _ p => p
  liberties := fun _ _ => []

/-- The search root for `gW`. -/
def rootW : MCTree ℕ := mkRoot gW 0

/-- The tree after one iteration from `rootW` (expansion of action `7`,
playout reward `1`, backpropagation: `+1` at the child, `-1` at the root). -/
def T1w : MCTree ℕ :=
  MCTree.mk 0 none 1 (-1) [MCTree.mk 1 (some 7) 1 1 [] []] []

/-- A game with two sibling positions whose mobility profiles are mirrored:
in state `1` the player to move (player `1`) has 1 liberty and the opponent
has 3; in state `2` the player to move has 3 liberties and the opponent 1. -/
def gC2 : GameOps ℕ where
  player := fun s => if s = 0 then 0 else 1
  actions := fun _ => []
  result := fun s _ => s
  terminalTest := fun _ => true
  locs := fun s p => 10 * s + p
  liberties := fun s loc =>
    if s = 1 then (if loc = 10 then [1, 2, 3] else if loc = 11 then [9] else [])
    else if s = 2 then (if loc = 20 then [9] else if loc = 21 then [1, 2, 3] else [])
    else []

/-- Child for state `1` (acting player keeps 3 liberties, opponent 1). -/
def childA : MCTree ℕ := MCTree.mk 1 (some 5) 1 0 [] []

/-- Child for state `2` (acting player keeps 1 liberty, opponent 3). -/
def childB : MCTree ℕ := MCTree.mk 2 (some 6) 1 0 [] []

/-- A parent whose two children tie on the selection score. -/
def parentC2 : MCTree ℕ := MCTree.mk 0 none 2 0 [childA, childB] []

/-- A visited child whose selection score is below the `-999` sentinel. -/
def childD : MCTree ℕ := MCTree.mk 3 (some 5) 1 (-2000) [] []

/-- A parent with one visited child scoring below `-999`. -/
def parentD : MCTree ℕ := MCTree.mk 0 none 1 0 [childD] []

/-- A node with `visit = 2`, `utility = 0` on which the implemented and the
canonical selection formulas differ. -/
def tC3 : MCTree ℕ := MCTree.mk 0 none 2 0 [] []

/-- A three-level chain used to exercise `backpropagate`. -/
def T3chain : MCTree ℕ :=
  MCTree.mk 0 none 0 0 [MCTree.mk 1 (some 1) 0 0 [MCTree.mk 2 (some 2) 0 0 [] []] []] []

/-- Continuing a run preserves every node; in particular an exhausted
untried-action list stays exhausted for the rest of the search. -/
theorem runLoop_extend_persist (g : GameOps σ) (picks : ℕ → ℕ) (rewards : ℕ → ℤ)
    (n m : ℕ) (t0 t : MCTree σ) (h1 : runLoop g picks rewards n t0 = Except.ok t) :
    ∀ t2, runLoop g picks rewards (n + m) t0 = Except.ok t2 →
      ∀ q u, getPath q t = some u → ∃ w, getPath q t2 = some w ∧
        (u.untried = [] → w.untried = []) := by
  induction m with
  | zero =>
    intro t2 h2 q u hu
    rw [Nat.add_zero, h1] at h2
    injection h2 with h2
    subst h2
    exact ⟨u, hu, fun he => he⟩
  | succ m ih =>
    intro t2 h2 q u hu
    rw [show n + (m + 1) = (n + m) + 1 from rfl, runLoop] at h2
    cases hrn : runLoop g picks rewards (n + m) t0 with
    | error e => rw [hrn] at h2; simp at h2
    | ok t1 =>
      rw [hrn] at h2
      obtain ⟨w1, hw1, hun1⟩ := ih t1 hrn q u hu
      simp only [stepOnce] at h2
      cases htp : treePolicy g (picks (n + m)) t1 with
      | error e => rw [htp] at h2; simp at h2
      | ok pr =>
        obtain ⟨t3, p⟩ := pr
        rw [htp] at h2
        simp only [Except.ok.injEq] at h2
        subst h2
        obtain ⟨-, hold, -⟩ := step_paths_at g (picks (n + m)) (rewards (n + m)) t1 t3 p htp
        obtain ⟨w, hw, -, hun⟩ := hold q w1 hw1
        exact ⟨w, hw, fun he => hun (hun1 he)⟩

/-- Claim C1: the claim says that when the loop ends with a childless root,
`best_action` returns the explicit `none` result rather than raising.  The
code has no such path: it unconditionally calls `self.root.best_child`,
whose `maxactions` stays empty over zero children, so
`max(helper_scores)` raises `ValueError` (modelled by `Except.error ()`).
This theorem evaluates the engine at the failing input — a zero-iteration
run (time budget already elapsed) on a fresh root. -/
theorem claim_C1_childless_root_raises :
    bestActionN gW (fun _ => 0) (fun _ => 0) 0 (1 / 2 : ℝ) rootW = Except.error () := by
  simp [bestActionN, runLoop, best_child, bestChildIdx, maxScoreFold, rootW, mkRoot,
    mkNode, gW]

/-- Claim C2 (counterexample): two children of `parentC2` tie on the
selection score, all visit counts are positive, yet `best_child` returns
`childB`, whose mobility heuristic from the acting player's viewpoint
(`specHeuristic` at the parent's player to move, player `0`) is strictly
smaller than that of the tied sibling `childA` — the code evaluates
`heuristic_score` from the viewpoint of the player to move in the child
state, the acting player's opponent.  Moreover, on `parentD` (children
non-empty, every child visited) `best_child` returns no candidate at all,
because the only child's score is below the `-999` sentinel that seeds
`maxscore`. -/
theorem claim_C2_counterexample :
    selectionScore 0 parentC2.visit childA = selectionScore 0 parentC2.visit childB ∧
    childA ∈ parentC2.children ∧ childB ∈ parentC2.children ∧
    (∀ c ∈ parentC2.children, 0 < c.visit) ∧
    best_child gC2 0 parentC2 = some childB ∧
    specHeuristic gC2 (gC2.player parentC2.state) childB.state
      < specHeuristic gC2 (gC2.player parentC2.state) childA.state ∧
    parentD.children ≠ [] ∧ (∀ c ∈ parentD.children, 0 < c.visit) ∧
    best_child gC2 0 parentD = none := by
  refine ⟨?_, ?_, ?_, ?_, ?_, ?_, ?_, ?_, ?_⟩
  · simp [selectionScore, parentC2, childA, childB]
  · simp [parentC2]
  · simp [parentC2]
  · intro c hc
    simp only [parentC2, MCTree.children_mk, List.mem_cons, List.not_mem_nil,
      or_false] at hc
    rcases hc with rfl | rfl <;> decide
  · rw [best_child_eq_tieBreak]
    have hm : maxSelScore 0 parentC2 = 0 := by
      simp [maxSelScore, parentC2, foldMax, List.enum, List.enumFrom, childA, childB,
        selectionScore]
    have hc : scoreMaxCands 0 parentC2 = [childA, childB] := by
      simp only [scoreMaxCands, hm]
      simp [parentC2, childA, childB, selectionScore, List.filter]
    rw [hc]
    simp [tieBreakFirstMax, childA, childB, heuristic_score, gC2]
  · decide
  · simp [parentD]
  · intro c hc
    simp only [parentD, MCTree.children_mk, List.mem_cons, List.not_mem_nil,
      or_false] at hc
    subst hc
    decide
  · rw [best_child_eq_tieBreak]
    have hm : maxSelScore 0 parentD = -999 := by
      simp [maxSelScore, parentD, foldMax, List.enum, List.enumFrom, childD, selectionScore]
      norm_num
    have hc : scoreMaxCands 0 parentD = [] := by
      simp only [scoreMaxCands, hm]
      simp [parentD, childD, selectionScore]
    rw [hc]
    rfl

/-- Claim C2 (amended): on a node with non-empty children, all children
visited, and at least one child scoring at least the `-999` sentinel,
`best_child` collects exactly the children attaining the maximum selection
score and among them returns the first candidate (in child order) whose
mobility heuristic is strictly greatest, where the heuristic is evaluated on
the candidate child's state from the viewpoint of the player to move in that
child state (the acting player's opponent) — `heuristic_score`, not the
acting player's viewpoint stated in the claim. -/
theorem claim_C2_amended (σ : Type) (g : GameOps σ) (w : ℝ) (t : MCTree σ)
    (hne : t.children ≠ []) (hvis : ∀ c ∈ t.children, 0 < c.visit)
    (hsent : ∃ c ∈ t.children, (-999 : ℝ) ≤ selectionScore w t.visit c) :
    (∀ c ∈ t.children, selectionScore w t.visit c ≤ maxSelScore w t) ∧
    (∃ c ∈ t.children, selectionScore w t.visit c = maxSelScore w t) ∧
    scoreMaxCands w t ≠ [] ∧
    best_child g w t
      = tieBreakFirstMax (fun c => heuristic_score g c.state) (scoreMaxCands w t) := by
  obtain ⟨hub, c0, hc0, hatt⟩ := maxSelScore_is_max w t hsent
  refine ⟨hub, ⟨c0, hc0, hatt⟩, ?_, best_child_eq_tieBreak g w t⟩
  have : c0 ∈ scoreMaxCands w t := by
    rw [scoreMaxCands]
    exact List.mem_filter.mpr ⟨hc0, by simpa using hatt⟩
  exact List.ne_nil_of_mem this

/-- Claim C2 (witness): the amended theorem applied to `parentC2`. -/
theorem claim_C2_witness :
    (parentC2.children ≠ [] ∧ (∀ c ∈ parentC2.children, 0 < c.visit) ∧
      (∃ c ∈ parentC2.children, (-999 : ℝ) ≤ selectionScore 0 parentC2.visit c)) ∧
    best_child gC2 0 parentC2
      = tieBreakFirstMax (fun c => heuristic_score gC2 c.state) (scoreMaxCands 0 parentC2) := by
  have h1 : parentC2.children ≠ [] := by simp [parentC2]
  have h2 : ∀ c ∈ parentC2.children, 0 < c.visit := by
    intro c hc
    simp only [parentC2, MCTree.children_mk, List.mem_cons, List.not_mem_nil,
      or_false] at hc
    rcases hc with rfl | rfl <;> decide
  have h3 : ∃ c ∈ parentC2.children, (-999 : ℝ) ≤ selectionScore 0 parentC2.visit c := by
    refine ⟨childA, by simp [parentC2], ?_⟩
    have : selectionScore 0 parentC2.visit childA = 0 := by
      simp [selectionScore, parentC2, childA]
    rw [this]
    norm_num
  exact ⟨⟨h1, h2, h3⟩, (claim_C2_amended ℕ gC2 0 parentC2 h1 h2 h3).2.2.2⟩

/-- Claim C3: the selection score computed by `best_child` is exactly
`t.utility / t.visit + explorationWeight * sqrt(2 * ln(self.visit / t.visit))`
— the parent's own visit count divided by the child's visit count inside the
logarithm — and this is not the canonical aggregate-sibling-visits UCT form:
on the concrete node `tC3` (parent visit 2, child visit 2, utility 0) the two
formulas give different values. -/
theorem claim_C3_selection_formula :
    (∀ (σ : Type) (cp : ℝ) (pv : ℕ) (t : MCTree σ), 0 < pv → 0 < t.visit →
      selectionScore cp pv t
        = (t.utility : ℝ) / (t.visit : ℝ)
            + cp * Real.sqrt (2 * Real.log ((pv : ℝ) / (t.visit : ℝ)))) ∧
    selectionScore 1 2 tC3 ≠ canonicalScore 1 2 tC3 := by
  constructor
  · intro σ cp pv t hpv hv
    rfl
  · have h1 : selectionScore 1 2 tC3 = 0 := by
      simp [selectionScore, tC3]
    have h2 : 0 < canonicalScore 1 2 tC3 := by
      simp only [canonicalScore, tC3, MCTree.utility_mk, MCTree.visit_mk]
      rw [show ((0 : ℤ) : ℝ) / ((2 : ℕ) : ℝ) = 0 by norm_num]
      rw [zero_add, one_mul]
      apply Real.sqrt_pos.mpr
      rw [div_pos_iff]
      left
      constructor
      · have := Real.log_pos (by norm_num : (1 : ℝ) < 2)
        positivity
      · norm_num
    rw [h1]
    exact ne_of_lt h2

/-- Claim C3 (witness): the formula instantiated at `childA` under a parent
with two visits. -/
theorem claim_C3_witness :
    0 < 2 ∧ 0 < childA.visit ∧
    selectionScore 1 2 childA
      = (childA.utility : ℝ) / (childA.visit : ℝ)
          + 1 * Real.sqrt (2 * Real.log (((2 : ℕ) : ℝ) / (childA.visit : ℝ))) :=
  ⟨by decide, by decide,
    claim_C3_selection_formula.1 ℕ 1 2 childA (by decide) (by decide)⟩

/-- Claim C4 (counterexample): on a terminal state the top-level policy does
not "choose a uniformly random legal action" — a terminal state has no legal
actions, so `random.choice(state.actions())` raises `IndexError`, the blanket
`except` swallows it, and the turn is abandoned with nothing submitted. -/
theorem claim_C4_counterexample :
    gW.terminalTest 1 = true ∧
    get_action gW 1 5 0 (fun _ => 0) (fun _ => 0) 0 0 = Submission.abandoned ∧
    ¬ ∃ a, a ∈ gW.actions 1 ∧
      get_action gW 1 5 0 (fun _ => 0) (fun _ => 0) 0 0 = Submission.put (some a) := by
  refine ⟨by decide, ?_, ?_⟩
  · simp [get_action, gW, randomChoice]
  · rintro ⟨a, ha, -⟩
    simp [gW] at ha

/-- Claim C4 (amended): what `get_action` actually does.  On a terminal state
(no legal actions) the random choice raises and the turn is abandoned without
submitting; on a non-terminal state in the first two plies it submits a
uniformly random legal action without invoking the engine (the result does
not depend on the engine's oracles or iteration count); otherwise it runs the
engine: an engine exception abandons the turn, a truthy action (non-`None`,
non-zero) is submitted, a falsy result falls back to a random legal action
when one exists, and `None` is put when there are none. -/
theorem claim_C4_amended (σ : Type) (g : GameOps σ) (s : σ) (ply n : ℕ)
    (picks : ℕ → ℕ) (rewards : ℕ → ℤ) (k1 k2 : ℕ) :
    (g.terminalTest s = true → g.actions s = [] →
      get_action g s ply n picks rewards k1 k2 = Submission.abandoned) ∧
    ((g.terminalTest s = true ∨ ply < 2) → g.actions s ≠ [] →
      ∃ a, a ∈ g.actions s ∧ ∀ (n2 : ℕ) (picks2 : ℕ → ℕ) (rewards2 : ℕ → ℤ),
        get_action g s ply n2 picks2 rewards2 k1 k2 = Submission.put (some a)) ∧
    (g.terminalTest s = false → 2 ≤ ply →
      (∀ e, bestActionN g picks rewards n (1 / 2 : ℝ) (mkRoot g s) = Except.error e →
        get_action g s ply n picks rewards k1 k2 = Submission.abandoned) ∧
      (∀ res, bestActionN g picks rewards n (1 / 2 : ℝ) (mkRoot g s) = Except.ok res →
        truthy res = true →
        get_action g s ply n picks rewards k1 k2 = Submission.put res) ∧
      (∀ res, bestActionN g picks rewards n (1 / 2 : ℝ) (mkRoot g s) = Except.ok res →
        truthy res = false → g.actions s ≠ [] →
        ∃ a, a ∈ g.actions s ∧
          get_action g s ply n picks rewards k1 k2 = Submission.put (some a)) ∧
      (∀ res, bestActionN g picks rewards n (1 / 2 : ℝ) (mkRoot g s) = Except.ok res →
        truthy res = false → g.actions s = [] →
        get_action g s ply n picks rewards k1 k2 = Submission.put none)) := by
  refine ⟨?_, ?_, ?_⟩
  · intro ht ha
    simp [get_action, ht, ha, randomChoice]
  · intro hor hne
    have hcond : (g.terminalTest s || decide (ply < 2)) = true := by
      rcases hor with h | h
      · simp [h]
      · simp [h]
    have hlen : 0 < (g.actions s).length := List.length_pos.mpr hne
    have hk : k1 % (g.actions s).length < (g.actions s).length := Nat.mod_lt _ hlen
    refine ⟨(g.actions s).get ⟨k1 % (g.actions s).length, hk⟩, List.get_mem _ _ _, ?_⟩
    intro n2 picks2 rewards2
    simp [get_action, hcond, randomChoice, List.get?_eq_get hk, List.getElem?_eq_getElem hk,
      List.get_eq_getElem]
  · intro hterm hply
    have hlt : ¬ ply < 2 := Nat.not_lt.mpr hply
    refine ⟨?_, ?_, ?_, ?_⟩
    · intro e heng
      simp only [one_div] at heng
      simp [get_action, hterm, hlt, heng]
    · intro res heng htr
      simp only [one_div] at heng
      simp [get_action, hterm, hlt, heng, htr]
    · intro res heng htr hne
      have hlen : 0 < (g.actions s).length := List.length_pos.mpr hne
      have hk : k2 % (g.actions s).length < (g.actions s).length := Nat.mod_lt _ hlen
      refine ⟨(g.actions s).get ⟨k2 % (g.actions s).length, hk⟩, List.get_mem _ _ _, ?_⟩
      simp only [one_div] at heng
      simp [get_action, hterm, hlt, heng, htr, randomChoice, List.get?_eq_get hk,
        List.getElem?_eq_getElem hk, List.get_eq_getElem, List.isEmpty_iff, hne]
    · intro res heng htr ha
      simp only [one_div] at heng
      simp [get_action, hterm, hlt, heng, htr, ha]

/-- Claim C4 (witness): the amended theorem applied to a concrete
non-terminal state beyond the opening, with a zero-iteration engine run that
raises, so the turn is abandoned. -/
theorem claim_C4_witness :
    gW.terminalTest 0 = false ∧ 2 ≤ 5 ∧
    bestActionN gW (fun _ => 0) (fun _ => 0) 0 (1 / 2 : ℝ) (mkRoot gW 0) = Except.error () ∧
    get_action gW 0 5 0 (fun _ => 0) (fun _ => 0) 0 0 = Submission.abandoned := by
  have hterm : gW.terminalTest 0 = false := by decide
  have heng : bestActionN gW (fun _ => 0) (fun _ => 0) 0 (1 / 2 : ℝ) (mkRoot gW 0)
      = Except.error () := by
    simp [bestActionN, runLoop, best_child, bestChildIdx, maxScoreFold, mkRoot, mkNode, gW]
  exact ⟨hterm, by decide, heng,
    ((claim_C4_amended ℕ gW 0 5 0 (fun _ => 0) (fun _ => 0) 0 0).2.2 hterm
      (by decide)).1 () heng⟩

/-- Claim C5: under the engine's own sequencing, after any number of
completed iterations every child of every node in the tree has a positive
visit count — each child created by `expand` is backpropagated before the
iteration ends, so whenever `best_child` iterates over children (during
`tree_policy` descent over an earlier tree of the same run, or during the
final selection over this tree) the division `t.utility / t.visit` never has
a zero denominator. -/
theorem claim_C5_no_zero_visit_children (σ : Type) (g : GameOps σ) (picks : ℕ → ℕ)
    (rewards : ℕ → ℤ) (n : ℕ) (s : σ) (t : MCTree σ)
    (h : runLoop g picks rewards n (mkRoot g s) = Except.ok t) :
    ∀ q u, getPath q t = some u → ∀ c ∈ u.children, 0 < c.visit := by
  intro q u hq c hc
  have hinv := (runLoop_inv g picks rewards n (mkRoot g s) (treeInv_mkNode g s none) t h).1
  exact (hinv q u hq).1 c hc

/-- Claim C5 (witness): the one-iteration run on `gW`. -/
theorem claim_C5_witness :
    runLoop gW (fun _ => 0) (fun _ => 1) 1 (mkRoot gW 0) = Except.ok T1w ∧
    (∀ q u, getPath q T1w = some u → ∀ c ∈ u.children, 0 < c.visit) := by
  have hrun : runLoop gW (fun _ => 0) (fun _ => 1) 1 (mkRoot gW 0) = Except.ok T1w := by
    simp [runLoop, stepOnce, treePolicy, mkRoot, mkNode, gW, is_fully_expanded,
      expand, backprop, modifyIdx, bump, T1w]
  exact ⟨hrun, claim_C5_no_zero_visit_children ℕ gW (fun _ => 0) (fun _ => 1) 1 0 T1w hrun⟩

/-- Claim C6: a `backpropagate(result)` call started at the node reached by
path `p` increments the visit count of every node on the root-to-`p` path by
exactly 1 and adds `(-1) ^ (depth difference) * result` to its utility —
`+result` at the selected node, `-result` one level up, alternating all the
way to the root — and leaves every node off that path untouched. -/
theorem claim_C6_backprop_alternation (σ : Type) (p : List ℕ) (r : ℤ) (t : MCTree σ)
    (hp : (getPath p t).isSome) :
    (∀ q, q <+: p → ∀ u, getPath q t = some u →
      ∃ w, getPath q (backprop p r t) = some w ∧
        w.visit = u.visit + 1 ∧
        w.utility = u.utility + (-1) ^ (p.length - q.length) * r) ∧
    (∀ q, ¬ q <+: p → getPath q (backprop p r t) = getPath q t) := by
  constructor
  · intro q hqp u hu
    obtain ⟨w, hw, h1, h2, -⟩ := (backprop_getPath p r t hp q).2 hqp u hu
    exact ⟨w, hw, h1, h2⟩
  · intro q hqp
    exact (backprop_getPath p r t hp q).1 hqp

/-- Claim C6 (witness): backpropagation along the three-level chain
`T3chain` with result `1`: `+1` at depth 2, `-1` at depth 1, `+1` at the
root. -/
theorem claim_C6_witness :
    (getPath [0, 0] T3chain).isSome = true ∧
    ((∀ q, q <+: [0, 0] → ∀ u, getPath q T3chain = some u →
      ∃ w, getPath q (backprop [0, 0] 1 T3chain) = some w ∧
        w.visit = u.visit + 1 ∧
        w.utility = u.utility + (-1) ^ ([0, 0].length - q.length) * 1) ∧
    (∀ q, ¬ q <+: [0, 0] → getPath q (backprop [0, 0] 1 T3chain) = getPath q T3chain)) := by
  have hp : (getPath [0, 0] T3chain).isSome = true := by decide
  exact ⟨hp, claim_C6_backprop_alternation ℕ [0, 0] 1 T3chain hp⟩

/-- Claim C7: visit-count conservation.  After `n` completed iterations
(recorded in the instrumented history `hs`, one selected path per
iteration), every node's visit count equals the number of backpropagation
passes that touched it — the passes whose selected path it lies on — the
root's visit count equals `n`, and a fully expanded node has at least as
many visits as all its children together. -/
theorem claim_C7_visit_conservation (σ : Type) (g : GameOps σ) (picks : ℕ → ℕ)
    (rewards : ℕ → ℤ) (n : ℕ) (s : σ) (t : MCTree σ) (hs : List (List ℕ))
    (h : runLoopH g picks rewards n (mkRoot g s) = Except.ok (t, hs)) :
    hs.length = n ∧
    (∀ q u, getPath q t = some u →
      u.visit = hs.countP (fun p2 => q.isPrefixOf p2)) ∧
    t.visit = n ∧
    (∀ q u, getPath q t = some u → u.untried = [] →
      (u.children.map MCTree.visit).sum ≤ u.visit) := by
  obtain ⟨hrun, hlen, -, hcount⟩ := runLoopH_spec g picks rewards n (mkRoot g s) t hs h
  have hroot0 : ∀ q u0, getPath q (mkRoot g s) = some u0 → u0.visit = 0 := by
    intro q u0 hq
    cases q with
    | nil =>
      simp only [getPath_nil, Option.some.injEq] at hq
      subst hq
      rfl
    | cons i q2 =>
      rw [getPath_cons] at hq
      simp [mkRoot, mkNode] at hq
  have hcnt : ∀ q u, getPath q t = some u →
      u.visit = hs.countP (fun p2 => q.isPrefixOf p2) := by
    intro q u hq
    rcases hcount q u hq with ⟨u0, hu0, hv⟩ | ⟨-, hv⟩
    · rw [hv, hroot0 q u0 hu0, Nat.zero_add]
    · exact hv
  refine ⟨hlen, hcnt, ?_, ?_⟩
  · have := hcnt [] t rfl
    rw [this, ← hlen]
    exact List.countP_eq_length.mpr (fun a _ => by simp [List.isPrefixOf])
  · intro q u hq hun
    have hinv := (runLoop_inv g picks rewards n (mkRoot g s) (treeInv_mkNode g s none) t hrun).1
    exact (hinv q u hq).2.1

/-- Claim C7 (witness): the instrumented one-iteration run on `gW`, with
history `[[0]]`. -/
theorem claim_C7_witness :
    runLoopH gW (fun _ => 0) (fun _ => 1) 1 (mkRoot gW 0) = Except.ok (T1w, [[0]]) ∧
    ([[0]] : List (List ℕ)).length = 1 ∧
    (∀ q u, getPath q T1w = some u →
      u.visit = ([[0]] : List (List ℕ)).countP (fun p2 => q.isPrefixOf p2)) ∧
    T1w.visit = 1 := by
  have hrun : runLoopH gW (fun _ => 0) (fun _ => 1) 1 (mkRoot gW 0)
      = Except.ok (T1w, [[0]]) := by
    simp [runLoopH, treePolicy, mkRoot, mkNode, gW, is_fully_expanded,
      expand, backprop, modifyIdx, bump, T1w]
  obtain ⟨h1, h2, h3, -⟩ :=
    claim_C7_visit_conservation ℕ gW (fun _ => 0) (fun _ => 1) 1 0 T1w [[0]] hrun
  exact ⟨hrun, h1, h2, h3⟩

/-- The tree obtained by expanding the root of `gW` once (no
backpropagation yet). -/
def TExpW : MCTree ℕ := MCTree.mk 0 none 0 0 [MCTree.mk 1 (some 7) 0 0 [] []] []

/-- Claim C8: `untriedActions` is empty iff the node is fully expanded
(definitionally); each `expand` call moves exactly one action from
`untriedActions` into exactly one new child carrying that action; across a
run, a node's children count plus its remaining untried count equals its
original legal-action count (so the children never exceed it, and with
duplicate-free legal actions the children's actions are duplicate-free —
each action yields exactly one child); and once a node's untried list is
exhausted it stays exhausted for the rest of the search. -/
theorem claim_C8_expansion_invariants (σ : Type) :
    (∀ t : MCTree σ, is_fully_expanded t = true ↔ t.untried = []) ∧
    (∀ (g : GameOps σ) (pk : ℕ) (t t2 : MCTree σ) (i : ℕ), expand g pk t = some (t2, i) →
      ∃ a, a ∈ t.untried ∧ t2.untried = t.untried.erase a ∧
        t2.children = t.children ++ [mkNode g (g.result t.state a) (some a)] ∧
        i = t.children.length) ∧
    (∀ (g : GameOps σ) (picks : ℕ → ℕ) (rewards : ℕ → ℤ) (n : ℕ) (s : σ) (t : MCTree σ),
      runLoop g picks rewards n (mkRoot g s) = Except.ok t →
      ∀ q u, getPath q t = some u →
        u.children.length + u.untried.length = (g.actions u.state).length ∧
        ((g.actions u.state).Nodup → (u.children.map MCTree.action).Nodup)) ∧
    (∀ (g : GameOps σ) (picks : ℕ → ℕ) (rewards : ℕ → ℤ) (n m : ℕ) (s : σ)
        (t t2 : MCTree σ),
      runLoop g picks rewards n (mkRoot g s) = Except.ok t →
      runLoop g picks rewards (n + m) (mkRoot g s) = Except.ok t2 →
      ∀ q u, getPath q t = some u → u.untried = [] →
        ∃ w, getPath q t2 = some w ∧ w.untried = []) := by
  refine ⟨is_fully_expanded_iff, ?_, ?_, ?_⟩
  · intro g pk t t2 i hexp
    cases t with
    | mk s a v u ch un =>
      simp only [expand] at hexp
      cases hact : un.get? (pk % un.length) with
      | none => rw [hact] at hexp; simp at hexp
      | some act =>
        rw [hact] at hexp
        simp only [Option.some.injEq, Prod.mk.injEq] at hexp
        obtain ⟨rfl, rfl⟩ := hexp
        exact ⟨act, by simpa using List.get?_mem hact, by simp, by simp, by simp⟩
  · intro g picks rewards n s t hrun q u hq
    have hinv := (runLoop_inv g picks rewards n (mkRoot g s)
      (treeInv_mkNode g s none) t hrun).1
    have hperm := (hinv q u hq).2.2
    constructor
    · have := hperm.length_eq
      simpa using this
    · intro hnd
      have hnd2 : ((g.actions u.state).map some).Nodup :=
        hnd.map (fun x y hxy => Option.some.inj hxy)
      have := (hperm.nodup_iff).mpr hnd2
      exact (List.nodup_append.mp this).1
  · intro g picks rewards n m s t t2 h1 h2 q u hq hun
    obtain ⟨w, hw, hwe⟩ := runLoop_extend_persist g picks rewards n m (mkRoot g s) t h1 t2 h2 q u hq
    exact ⟨w, hw, hwe hun⟩

/-- Claim C8 (witness): the conjuncts applied to the concrete game `gW` —
the root is not fully expanded, expanding it moves action `7` into a single
new child, after one iteration the counts add up, and the persistence
conjunct at `n = 0`, `m = 1`. -/
theorem claim_C8_witness :
    (is_fully_expanded (mkRoot gW 0) = true ↔ (mkRoot gW 0).untried = []) ∧
    (expand gW 0 (mkRoot gW 0) = some (TExpW, 0) ∧
      ∃ a, a ∈ (mkRoot gW 0).untried ∧ TExpW.untried = (mkRoot gW 0).untried.erase a ∧
        TExpW.children = (mkRoot gW 0).children
          ++ [mkNode gW (gW.result (mkRoot gW 0).state a) (some a)] ∧
        (0 : ℕ) = (mkRoot gW 0).children.length) ∧
    (runLoop gW (fun _ => 0) (fun _ => 1) 1 (mkRoot gW 0) = Except.ok T1w ∧
      ∀ q u, getPath q T1w = some u →
        u.children.length + u.untried.length = (gW.actions u.state).length ∧
        ((gW.actions u.state).Nodup → (u.children.map MCTree.action).Nodup)) ∧
    (runLoop gW (fun _ => 0) (fun _ => 1) 0 (mkRoot gW 0) = Except.ok (mkRoot gW 0) ∧
      ∀ q u, getPath q (mkRoot gW 0) = some u → u.untried = [] →
        ∃ w, getPath q T1w = some w ∧ w.untried = []) := by
  have hexp : expand gW 0 (mkRoot gW 0) = some (TExpW, 0) := by
    simp [expand, mkRoot, mkNode, gW, TExpW]
  have hrun : runLoop gW (fun _ => 0) (fun _ => 1) 1 (mkRoot gW 0) = Except.ok T1w := by
    simp [runLoop, stepOnce, treePolicy, mkRoot, mkNode, gW, is_fully_expanded,
      expand, backprop, modifyIdx, bump, T1w]
  have hrun0 : runLoop gW (fun _ => 0) (fun _ => 1) 0 (mkRoot gW 0)
      = Except.ok (mkRoot gW 0) := rfl
  refine ⟨(claim_C8_expansion_invariants ℕ).1 (mkRoot gW 0),
    ⟨hexp, (claim_C8_expansion_invariants ℕ).2.1 gW 0 (mkRoot gW 0) TExpW 0 hexp⟩,
    ⟨hrun, (claim_C8_expansion_invariants ℕ).2.2.1 gW (fun _ => 0) (fun _ => 1) 1 0 T1w hrun⟩,
    ⟨hrun0, (claim_C8_expansion_invariants ℕ).2.2.2 gW (fun _ => 0) (fun _ => 1) 0 1 0
      (mkRoot gW 0) T1w hrun0 hrun⟩⟩

/-- Claim C9 (counterexample): the wall-clock deadline is
`math.ceil(simulations_time * 0.75)`, which at the reference 150 ms budget is
113 ms, not exactly `0.75 × 150 = 112.5` ms as the claim states. -/
theorem claim_C9_counterexample :
    allowed_time 150 = 113 ∧
    ((allowed_time 150 : ℤ) : ℚ) ≠ 150 * (3 / 4 : ℚ) ∧
    (150 : ℚ) * (3 / 4 : ℚ) = 112.5 := by
  have h : allowed_time 150 = 113 := by
    show ⌈(150 : ℚ) * (3 / 4 : ℚ)⌉ = 113
    norm_num
    rw [show (225 : ℚ) / 2 = 112.5 by norm_num]
    norm_num [Int.ceil_eq_iff]
  refine ⟨h, ?_, by norm_num⟩
  rw [h]
  norm_num

/-- Claim C9 (amended): the deadline that bounds the iteration loop is
`⌈0.75 × timeBudgetMillis⌉` milliseconds — `0.75 × budget` rounded up to a
whole millisecond, 113 ms for the reference 150 ms budget. -/
theorem claim_C9_amended (ms : ℚ) :
    ms * (3 / 4 : ℚ) ≤ ((allowed_time ms : ℤ) : ℚ) ∧
    ((allowed_time ms : ℤ) : ℚ) < ms * (3 / 4 : ℚ) + 1 ∧
    allowed_time 150 = 113 := by
  refine ⟨Int.le_ceil _, Int.ceil_lt_add_one _, ?_⟩
  show ⌈(150 : ℚ) * (3 / 4 : ℚ)⌉ = 113
  norm_num
  rw [show (225 : ℚ) / 2 = 112.5 by norm_num]
  norm_num [Int.ceil_eq_iff]

/-- Claim C10: at every iteration boundary, every node's visit count is at
least the sum of its children's visit counts (even before the node is fully
expanded); hence for every child `c` already visited, `u.visit / c.visit ≥ 1`,
so the logarithm argument of the selection formula is at least 1 and the
square-root operand `2 * log(u.visit / c.visit)` is nonnegative whenever
`best_child` evaluates a child. -/
theorem claim_C10_parent_dominates_children (σ : Type) (g : GameOps σ) (picks : ℕ → ℕ)
    (rewards : ℕ → ℤ) (n : ℕ) (s : σ) (t : MCTree σ)
    (h : runLoop g picks rewards n (mkRoot g s) = Except.ok t) :
    ∀ q u, getPath q t = some u →
      (u.children.map MCTree.visit).sum ≤ u.visit ∧
      ∀ c ∈ u.children, 0 < c.visit →
        (1 : ℝ) ≤ (u.visit : ℝ) / (c.visit : ℝ) ∧
        0 ≤ 2 * Real.log ((u.visit : ℝ) / (c.visit : ℝ)) := by
  intro q u hq
  have hinv := (runLoop_inv g picks rewards n (mkRoot g s) (treeInv_mkNode g s none) t h).1
  obtain ⟨-, hsum, -⟩ := hinv q u hq
  refine ⟨hsum, ?_⟩
  intro c hc hcv
  have hle : c.visit ≤ u.visit := by
    have : c.visit ≤ (u.children.map MCTree.visit).sum :=
      List.single_le_sum (fun x _ => Nat.zero_le x) c.visit
        (List.mem_map_of_mem MCTree.visit hc)
    omega
  have hdiv : (1 : ℝ) ≤ (u.visit : ℝ) / (c.visit : ℝ) := by
    rw [le_div_iff (by exact_mod_cast hcv)]
    simpa using (Nat.cast_le (α := ℝ)).mpr hle
  exact ⟨hdiv, mul_nonneg (by norm_num) (Real.log_nonneg hdiv)⟩

/-- Claim C10 (witness): the one-iteration run on `gW`. -/
theorem claim_C10_witness :
    runLoop gW (fun _ => 0) (fun _ => 1) 1 (mkRoot gW 0) = Except.ok T1w ∧
    (∀ q u, getPath q T1w = some u →
      (u.children.map MCTree.visit).sum ≤ u.visit ∧
      ∀ c ∈ u.children, 0 < c.visit →
        (1 : ℝ) ≤ (u.visit : ℝ) / (c.visit : ℝ) ∧
        0 ≤ 2 * Real.log ((u.visit : ℝ) / (c.visit : ℝ))) := by
  have hrun : runLoop gW (fun _ => 0) (fun _ => 1) 1 (mkRoot gW 0) = Except.ok T1w := by
    simp [runLoop, stepOnce, treePolicy, mkRoot, mkNode, gW, is_fully_expanded,
      expand, backprop, modifyIdx, bump, T1w]
  exact ⟨hrun,
    claim_C10_parent_dominates_children ℕ gW (fun _ => 0) (fun _ => 1) 1 0 T1w hrun⟩
